import Mathlib

/-!
Verification of the hookman rule-language front end: the lexer
(`lexer/lexer.go`), the recursive-descent rule parser (`parser/parser.go`)
and the comma-separated argument-list parser (`parser/argumentParser.go`).

Go strings are byte strings; the embedding represents an input string as a
`List Nat` of its bytes.  Machine positions and counters are `Nat`/`Int`.
The lexer's continuation-passing state machine (`LexFn`) always returns
either `nil` (halt) or a state that performs exactly one token action and
then re-enters `LexBegin`; the embedding therefore flattens one
`LexBegin`-dispatch plus the dispatched token action into one step of
`lexStep`, which is behaviourally identical (same emitted tokens, errors,
positions and open-parenthesis count at every step boundary).
-/

namespace Hookman

/-- Bytes of an ASCII string (used to write concrete test inputs legibly;
for ASCII text the Unicode code points coincide with the UTF-8 bytes). -/
def bytes (s : String) : List Nat := s.data.map Char.toNat

/-! ### Model of `utf8.RuneCountInString`

`Lexer.IsEOF` compares the byte-indexed scan position against
`utf8.RuneCountInString(lexer.Input)`.  The model below follows the Go
standard-library implementation: for each position it classifies the first
byte, checks that the full encoding fits in the remaining input and that
the continuation bytes lie in the accepted ranges, and advances by the
encoding size (or by 1 for an invalid byte/sequence), counting one rune
per iteration. -/

/-- First-byte classification of a non-ASCII byte: `some (size, lo, hi)`
gives the encoding size and the accepted range of the second byte
(`acceptRanges` of `unicode/utf8`); `none` marks an invalid first byte. -/
def utf8Info (b : Nat) : Option (Nat × Nat × Nat) :=
  if b < 0xC2 then none
  else if b ≤ 0xDF then some (2, 0x80, 0xBF)
  else if b = 0xE0 then some (3, 0xA0, 0xBF)
  else if b ≤ 0xEC then some (3, 0x80, 0xBF)
  else if b = 0xED then some (3, 0x80, 0x9F)
  else if b ≤ 0xEF then some (3, 0x80, 0xBF)
  else if b = 0xF0 then some (4, 0x90, 0xBF)
  else if b ≤ 0xF3 then some (4, 0x80, 0xBF)
  else if b = 0xF4 then some (4, 0x80, 0x8F)
  else none

/-- Number of bytes consumed for the rune starting at byte `b` with
remaining input `rest` (1 for ASCII and for every invalid sequence). -/
def runeAdv (b : Nat) (rest : List Nat) : Nat :=
  if b < 0x80 then 1
  else
    match utf8Info b with
    | none => 1
    | some (size, lo, hi) =>
      if rest.length + 1 < size then 1
      else
        match rest with
        | [] => 1
        | c1 :: rest2 =>
          if c1 < lo ∨ hi < c1 then 1
          else if size = 2 then 2
          else
            match rest2 with
            | [] => 1
            | c2 :: rest3 =>
              if c2 < 0x80 ∨ 0xBF < c2 then 1
              else if size = 3 then 3
              else
                match rest3 with
                | [] => 1
                | c3 :: _ => if c3 < 0x80 ∨ 0xBF < c3 then 1 else 4

/-- Fuel-driven recursion for `runeCount` (structural on the fuel so that
the kernel can evaluate it; `runeCountF_spec` shows the fuel passed by
`runeCount` never runs out). -/
def runeCountF : Nat → List Nat → Nat
  | 0, _ => 0
  | _, [] => 0
  | fuel + 1, b :: rest => runeCountF fuel (rest.drop (runeAdv b rest - 1)) + 1

/-- Model of `utf8.RuneCountInString` on the byte list of the input. -/
def runeCount (l : List Nat) : Nat := runeCountF l.length l

theorem runeCountF_le_length (fuel : Nat) (l : List Nat) :
    runeCountF fuel l ≤ l.length := by
  induction fuel generalizing l with
  | zero => simp [runeCountF]
  | succ fuel ih =>
    match l with
    | [] => simp [runeCountF]
    | b :: rest =>
      rw [runeCountF]
      have h := ih (rest.drop (runeAdv b rest - 1))
      simp only [List.length_drop] at h
      simp only [List.length_cons]
      omega

theorem runeCount_le_length (l : List Nat) : runeCount l ≤ l.length :=
  runeCountF_le_length l.length l

/-- The fuel is irrelevant as soon as it covers the list length, so
`runeCount` computes the total rune count of the whole input. -/
theorem runeCountF_fuel_irrel (f1 : Nat) (f2 : Nat) (l : List Nat)
    (h1 : l.length ≤ f1) (h2 : l.length ≤ f2) :
    runeCountF f1 l = runeCountF f2 l := by
  induction f1 generalizing f2 l with
  | zero =>
    match l, h1 with
    | [], _ =>
      match f2 with
      | 0 => rfl
      | _ + 1 => rfl
  | succ f1 ih =>
    match l with
    | [] =>
      match f2 with
      | 0 => rfl
      | _ + 1 => rfl
    | b :: rest =>
      match f2 with
      | f2 + 1 =>
        simp only [runeCountF]
        have hlen := List.length_drop (runeAdv b rest - 1) rest
        simp only [List.length_cons] at h1 h2
        rw [ih f2 _ (by omega) (by omega)]

/-! ### Lexer data model (`lexer/lexer.go`) -/

/-- `lexer.TokenType`. -/
inductive TokenType where
  | eof
  | leftParenthesis
  | rightParenthesis
  | comma
  | regexEqual
  | stringEqual
  | not
  | and
  | or
  | singleQuotedStringLiteral
  | doubleQuotedStringLiteral
  | sha1
deriving DecidableEq, Repr

/-- `lexer.Token`: a token type together with the raw input slice
`Input[TokenStart:Position]` recorded by `Lexer.Emit`. -/
structure Token where
  type : TokenType
  value : List Nat
deriving DecidableEq, Repr

/-- The lexical errors of `lexer.go`, each carrying the value of
`lexer.Position` at the moment `Errorf` was called. -/
inductive LexErr where
  | closingSingleQuotationMarkIsMissing (pos : Nat)
  | closingDoubleQuotationMarkIsMissing (pos : Nat)
  | closingParenthesisMissing (pos : Nat)
  | unexpectedToken (ch : Nat) (pos : Nat)
deriving DecidableEq, Repr

/-- `lexer.Lexer` minus the `State` function field (the flattened step
function of the embedding carries the control state implicitly). -/
structure Lexer where
  input : List Nat
  tokens : List Token
  errors : List LexErr
  tokenStart : Nat
  position : Nat
  openParenthesisCount : Int
deriving DecidableEq, Repr

/-- `lexer.New`. -/
def Lexer.new (input : List Nat) : Lexer :=
  { input := input, tokens := [], errors := [], tokenStart := 0,
    position := 0, openParenthesisCount := 0 }

/-- The slice `input[a:b]` of a Go byte string. -/
def slice (input : List Nat) (a b : Nat) : List Nat :=
  (input.drop a).take (b - a)

/-- Set `TokenStart := start`, `Position := stop` and `Emit t`
(the common shape of every token action in `lexer.go`). -/
def Lexer.emitRange (L : Lexer) (start stop : Nat) (t : TokenType) : Lexer :=
  { L with tokenStart := start, position := stop,
           tokens := L.tokens ++ [⟨t, slice L.input start stop⟩] }

/-- `Lexer.Errorf` (the formatted message is modelled by the `LexErr`
constructor; the position is supplied by the caller as in Go, where it is
always `lexer.Position` at the call site). -/
def Lexer.errorf (L : Lexer) (e : LexErr) : Lexer :=
  { L with errors := L.errors ++ [e] }

/-- The set of bytes `unicode.IsSpace` accepts when a single input byte is
widened to a rune by `Lexer.Read` (ASCII spaces plus U+0085 and U+00A0). -/
def isSpaceByte (b : Nat) : Bool :=
  b = 32 ∨ (9 ≤ b ∧ b ≤ 13) ∨ b = 133 ∨ b = 160

/-- Fuel-driven loop of `Lexer.EatWhitespaces` (the fuel passed by
`eatWhitespaces` always suffices because the position grows towards the
rune count on every iteration). -/
def eatWhitespacesF : Nat → List Nat → Nat → Nat
  | 0, _, pos => pos
  | fuel + 1, input, pos =>
    if pos < runeCount input then
      let b := input.getD pos 0
      if b = 0 then pos + 1
      else if isSpaceByte b then eatWhitespacesF fuel input (pos + 1)
      else pos
    else pos

/-- `Lexer.EatWhitespaces`: repeatedly `Read` (which tests
`Position ≥ RuneCountInString(Input)` and otherwise consumes one byte);
a NUL byte is returned as the `eof` rune *after* the position increment,
so it is consumed and the loop breaks; a non-space byte is pushed back. -/
def eatWhitespaces (input : List Nat) (pos : Nat) : Nat :=
  eatWhitespacesF (input.length + 1) input pos

/-- Result of the scanning loop shared by `LexSingleQuotedString` and
`LexDoubleQuotedString`: either the position of the unescaped closing
quote, or the end-of-input position when the quote never closes. -/
inductive QuotedRes where
  | closed (closePos : Nat)
  | hitEOF (eofPos : Nat)
deriving DecidableEq, Repr

/-- Fuel-driven loop of the quoted-string scan (the fuel passed by
`quotedScan` always suffices because the position strictly grows towards
the rune count on every iteration). -/
def quotedScanF : Nat → List Nat → Nat → Nat → QuotedRes
  | 0, _, _, pos => .hitEOF pos
  | fuel + 1, input, q, pos =>
    if pos < runeCount input then
      if [92, q].isPrefixOf (input.drop pos) then quotedScanF fuel input q (pos + 2)
      else if [q].isPrefixOf (input.drop pos) then .closed pos
      else quotedScanF fuel input q (pos + 1)
    else .hitEOF pos

/-- The inner loop of `LexSingleQuotedString`/`LexDoubleQuotedString` with
quote byte `q`: at each position, first an escaped quote (backslash `92`
then `q`) is consumed whole, then an unescaped `q` closes the literal,
otherwise one byte is consumed; `IsEOF` (position reaching the *rune*
count) aborts. -/
def quotedScan (input : List Nat) (q : Nat) (pos : Nat) : QuotedRes :=
  quotedScanF (input.length + 1) input q pos

/-- ASCII lowercasing of one byte; `strings.ToLower` agrees with this on
the ASCII prefix inspected by the lexer's case-insensitive `sha1` check. -/
def asciiLower (b : Nat) : Nat :=
  if 65 ≤ b ∧ b ≤ 90 then b + 32 else b

/-- One step result: `halt` models a state function returning `nil`. -/
inductive StepRes where
  | halt (L : Lexer)
  | next (L : Lexer)
deriving Repr

/-- The `if lexer.IsEOF() { TokenStart := Position; Emit(EOF); return nil }
else return LexBegin` epilogue shared by the simple token actions. -/
def Lexer.finishOrContinue (L : Lexer) : StepRes :=
  if L.position ≥ runeCount L.input then
    .halt (L.emitRange L.position L.position .eof)
  else .next L

/-- The `TokenStart := Position; Position += k; Emit(t); if IsEOF
{ Emit(EOF); return nil }; return LexBegin` body shared verbatim by
`LexComma`, `LexRightParenthesis`, `LexNot`, `LexAnd`, `LexOr`,
`LexStringEqual`, `LexRegexEqual` and `LexSha1`. -/
def lexSimpleToken (L : Lexer) (k : Nat) (t : TokenType) : StepRes :=
  (L.emitRange L.position (L.position + k) t).finishOrContinue

/-- `LexLeftParenthesis`: emit, bump the parenthesis counter, and at
end-of-input also emit the unbalanced-parenthesis error and halt. -/
def lexLeftParenthesis (L : Lexer) : StepRes :=
  if L.position + 1 ≥ runeCount L.input then
    .halt ((({ L.emitRange L.position (L.position + 1) .leftParenthesis with
        openParenthesisCount := L.openParenthesisCount + 1 }).emitRange
        (L.position + 1) (L.position + 1) .eof).errorf
        (.closingParenthesisMissing (L.position + 1)))
  else
    .next { L.emitRange L.position (L.position + 1) .leftParenthesis with
      openParenthesisCount := L.openParenthesisCount + 1 }

/-- `LexRightParenthesis`. -/
def lexRightParenthesis (L : Lexer) : StepRes :=
  ({ L.emitRange L.position (L.position + 1) .rightParenthesis with
    openParenthesisCount := L.openParenthesisCount - 1 }).finishOrContinue

/-- `LexSingleQuotedString`: skip the opening quote, scan to the closing
quote, and emit the raw slice strictly between the quotes; reaching
end-of-input first emits the EOF token and the missing-quote error. -/
def lexSingleQuotedString (L : Lexer) : StepRes :=
  match quotedScan L.input 39 (L.position + 1) with
  | .closed c =>
    .next { L.emitRange (L.position + 1) c .singleQuotedStringLiteral with
      position := c + 1 }
  | .hitEOF e =>
    .halt ((({ L with position := e }).emitRange e e .eof).errorf
      (.closingSingleQuotationMarkIsMissing e))

/-- `LexDoubleQuotedString`. -/
def lexDoubleQuotedString (L : Lexer) : StepRes :=
  match quotedScan L.input 34 (L.position + 1) with
  | .closed c =>
    .next { L.emitRange (L.position + 1) c .doubleQuotedStringLiteral with
      position := c + 1 }
  | .hitEOF e =>
    .halt ((({ L with position := e }).emitRange e e .eof).errorf
      (.closingDoubleQuotationMarkIsMissing e))

/-- The dispatch of `LexBegin` after the whitespace skip: EOF test, then
the prefix tests in source order, else the unexpected-token error. -/
def lexDispatch (L : Lexer) : StepRes :=
  if L.position ≥ runeCount L.input then
    .halt (L.emitRange L.position L.position .eof)
  else if [40].isPrefixOf (L.input.drop L.position) then lexLeftParenthesis L
  else if [41].isPrefixOf (L.input.drop L.position) then lexRightParenthesis L
  else if [44].isPrefixOf (L.input.drop L.position) then lexSimpleToken L 1 .comma
  else if [39].isPrefixOf (L.input.drop L.position) then lexSingleQuotedString L
  else if [34].isPrefixOf (L.input.drop L.position) then lexDoubleQuotedString L
  else if [33].isPrefixOf (L.input.drop L.position) then lexSimpleToken L 1 .not
  else if [38, 38].isPrefixOf (L.input.drop L.position) then lexSimpleToken L 2 .and
  else if [124, 124].isPrefixOf (L.input.drop L.position) then lexSimpleToken L 2 .or
  else if [61, 61].isPrefixOf (L.input.drop L.position) then lexSimpleToken L 2 .stringEqual
  else if [126, 61].isPrefixOf (L.input.drop L.position) then lexSimpleToken L 2 .regexEqual
  else if [115, 104, 97, 49].isPrefixOf ((L.input.drop L.position).map asciiLower) then
    lexSimpleToken L 4 .sha1
  else
    .halt (L.errorf (.unexpectedToken (L.input.getD L.position 0) L.position))

/-- One flattened lexer step: `LexBegin` (whitespace skip, then dispatch)
followed by the dispatched token action. -/
def lexStep (L0 : Lexer) : StepRes :=
  lexDispatch { L0 with position := eatWhitespaces L0.input L0.position }

/-- Iterate `lexStep` with fuel; `none` means the fuel ran out
(`lexRun_isSome` below shows `input.length + 1` always suffices). -/
def lexRun : Nat → Lexer → Option Lexer
  | 0, _ => none
  | fuel + 1, L =>
    match lexStep L with
    | .halt L' => some L'
    | .next L' => lexRun fuel L'

/-- The scan loop of `Lexer.Lex` (the `for` over state functions). -/
def lexScan (input : List Nat) : Lexer :=
  (lexRun (input.length + 1) (Lexer.new input)).getD (Lexer.new input)

/-- `Lexer.Lex`: run the scan loop, then append the unbalanced-parenthesis
error when the open-parenthesis counter is still positive. -/
def lexAll (input : List Nat) : Lexer :=
  if (lexScan input).openParenthesisCount > 0 then
    (lexScan input).errorf (.closingParenthesisMissing (lexScan input).position)
  else lexScan input

/-! ### Helper lemmas about the lexer's primitive operations -/

theorem prefix_length_le {l l2 : List Nat} (h : l.isPrefixOf l2) :
    l.length ≤ l2.length := by
  rw [ List.isPrefixOf_iff_prefix] at h
  exact h.length_le

theorem prefix_drop_bound {l input : List Nat} {p : Nat}
    (h : l.isPrefixOf (input.drop p)) (hne : l ≠ []) :
    p + l.length ≤ input.length := by
  have h1 := prefix_length_le h
  simp only [List.length_drop] at h1
  have h2 : 0 < l.length := List.length_pos.mpr hne
  omega

theorem prefix_getD {l input : List Nat} {p : Nat}
    (h : l.isPrefixOf (input.drop p)) (i : Nat) (hi : i < l.length) :
    input.getD (p + i) 0 = l.getD i 0 := by
  rw [ List.isPrefixOf_iff_prefix] at h
  obtain ⟨t, ht⟩ := h
  have h1 : (input.drop p)[i]? = l[i]? := by
    rw [← ht, List.getElem?_append_left hi]
  rw [List.getD_eq_getElem?_getD, List.getD_eq_getElem?_getD, ← List.getElem?_drop, h1]

theorem not_prefix_getD {q : Nat} {input : List Nat} {p : Nat}
    (h : ¬ [q].isPrefixOf (input.drop p)) (hp : p < input.length) :
    input.getD p 0 ≠ q := by
  intro hq
  apply h
  rw [ List.isPrefixOf_iff_prefix]
  have hd : input.drop p = input.getD p 0 :: input.drop (p + 1) := by
    rw [List.getD_eq_getElem?_getD, List.getElem?_eq_getElem hp]
    exact List.drop_eq_getElem_cons hp
  rw [hd, hq]
  exact ⟨input.drop (p + 1), rfl⟩

theorem slice_self (input : List Nat) (a : Nat) : slice input a a = [] := by
  simp [slice]

theorem slice_snoc {input : List Nat} {start pos : Nat}
    (h1 : start ≤ pos) (h2 : pos < input.length) :
    slice input start (pos + 1) = slice input start pos ++ [input.getD pos 0] := by
  unfold slice
  have hps : pos + 1 - start = (pos - start) + 1 := by omega
  rw [hps, List.take_succ]
  congr 1
  have h3 : (input.drop start)[pos - start]? = input[pos]? := by
    rw [List.getElem?_drop]
    congr 1
    omega
  rw [h3, List.getElem?_eq_getElem h2]
  simp [List.getD_eq_getElem?_getD, List.getElem?_eq_getElem h2]

/-- Whitespace skipping never moves backwards. -/
theorem eatWhitespacesF_ge (fuel : Nat) (input : List Nat) (pos : Nat) :
    pos ≤ eatWhitespacesF fuel input pos := by
  induction fuel generalizing pos with
  | zero => simp [eatWhitespacesF]
  | succ fuel ih =>
    simp only [eatWhitespacesF]
    split
    · split
      · omega
      · split
        · exact le_trans (by omega) (ih (pos + 1))
        · omega
    · omega

/-- Whitespace skipping never moves past the end of the input. -/
theorem eatWhitespacesF_le (fuel : Nat) (input : List Nat) (pos : Nat)
    (h : pos ≤ input.length) : eatWhitespacesF fuel input pos ≤ input.length := by
  induction fuel generalizing pos with
  | zero => simpa [eatWhitespacesF]
  | succ fuel ih =>
    simp only [eatWhitespacesF]
    split
    · have hrc : runeCount input ≤ input.length := runeCount_le_length input
      split
      · omega
      · split
        · exact ih (pos + 1) (by omega)
        · exact h
    · exact h

theorem eatWhitespaces_ge (input : List Nat) (pos : Nat) :
    pos ≤ eatWhitespaces input pos :=
  eatWhitespacesF_ge _ input pos

theorem eatWhitespaces_le (input : List Nat) (pos : Nat) (h : pos ≤ input.length) :
    eatWhitespaces input pos ≤ input.length :=
  eatWhitespacesF_le _ input pos h

/-- Bounds on the two outcomes of the quoted-string scan. -/
theorem quotedScanF_bounds (fuel : Nat) (input : List Nat) (q pos : Nat)
    (h : pos ≤ input.length) :
    (∀ c, quotedScanF fuel input q pos = .closed c → pos ≤ c ∧ c < input.length) ∧
    (∀ e, quotedScanF fuel input q pos = .hitEOF e → pos ≤ e ∧ e ≤ input.length) := by
  induction fuel generalizing pos with
  | zero =>
    constructor
    · intro c hc
      simp [quotedScanF] at hc
    · intro e he
      simp only [quotedScanF, QuotedRes.hitEOF.injEq] at he
      omega
  | succ fuel ih =>
    simp only [quotedScanF]
    split
    · split
      · -- escaped quote consumed
        have hb := prefix_drop_bound (l := [92, q]) (by assumption) (by simp)
        simp only [List.length_cons, List.length_nil] at hb
        have := ih (pos + 2) (by omega)
        constructor
        · intro c hc
          have h1 := this.1 c hc
          omega
        · intro e he
          have h1 := this.2 e he
          omega
      · split
        · -- closing quote found
          have hb := prefix_drop_bound (l := [q]) (by assumption) (by simp)
          simp only [List.length_cons, List.length_nil] at hb
          constructor
          · intro c hc
            cases hc
            omega
          · intro e he
            cases he
        · -- ordinary byte consumed
          have hrc : runeCount input ≤ input.length := runeCount_le_length input
          have := ih (pos + 1) (by omega)
          constructor
          · intro c hc
            have h1 := this.1 c hc
            omega
          · intro e he
            have h1 := this.2 e he
            omega
    · constructor
      · intro c hc
        cases hc
      · intro e he
        cases he
        omega

theorem quotedScan_bounds (input : List Nat) (q pos : Nat) (h : pos ≤ input.length) :
    (∀ c, quotedScan input q pos = .closed c → pos ≤ c ∧ c < input.length) ∧
    (∀ e, quotedScan input q pos = .hitEOF e → pos ≤ e ∧ e ≤ input.length) :=
  quotedScanF_bounds _ input q pos h

/-- A byte string in which every occurrence of the quote byte `q` is
immediately preceded by a backslash. -/
def noUnescaped (q : Nat) (v : List Nat) : Prop :=
  ∀ i, i < v.length → v.getD i 0 = q → 0 < i ∧ v.getD (i - 1) 0 = 92

theorem noUnescaped_nil (q : Nat) : noUnescaped q [] := by
  intro i hi
  simp at hi

theorem noUnescaped_snoc {q : Nat} {v : List Nat} {b : Nat}
    (h : noUnescaped q v)
    (hb : b = q → 0 < v.length ∧ v.getD (v.length - 1) 0 = 92) :
    noUnescaped q (v ++ [b]) := by
  intro i hi hq
  simp only [List.length_append, List.length_cons, List.length_nil] at hi
  by_cases hlt : i < v.length
  · have hv : (v ++ [b]).getD i 0 = v.getD i 0 := List.getD_append _ _ _ _ hlt
    rw [hv] at hq
    obtain ⟨h1, h2⟩ := h i hlt hq
    refine ⟨h1, ?_⟩
    rw [List.getD_append _ _ _ _ (by omega)]
    exact h2
  · have hieq : i = v.length := by omega
    subst hieq
    have hv : (v ++ [b]).getD v.length 0 = b := by
      rw [List.getD_append_right _ _ _ _ (le_refl _)]
      simp
    rw [hv] at hq
    obtain ⟨h1, h2⟩ := hb hq
    refine ⟨by omega, ?_⟩
    rw [List.getD_append _ _ _ _ (by omega)]
    exact h2

/-- Any literal value produced by the quoted scan keeps every embedded
quote byte escaped: the scan only steps over a quote byte as the second
half of a backslash-quote pair. -/
theorem quotedScanF_esc (fuel : Nat) (input : List Nat) (q : Nat) (hq : q ≠ 92)
    (start : Nat) :
    ∀ pos, start ≤ pos → pos ≤ input.length → noUnescaped q (slice input start pos) →
      ∀ c, quotedScanF fuel input q pos = .closed c →
        noUnescaped q (slice input start c) := by
  induction fuel with
  | zero =>
    intro pos _ _ _ c hc
    simp [quotedScanF] at hc
  | succ fuel ih =>
    intro pos hsp hpl hinv c hc
    simp only [quotedScanF] at hc
    split at hc
    · split at hc
      · -- escaped pair [92, q] consumed
        rename_i hpre
        have hb := prefix_drop_bound (l := [92, q]) hpre (by simp)
        simp only [List.length_cons, List.length_nil] at hb
        have h92 : input.getD (pos + 0) 0 = 92 := by
          have := prefix_getD hpre 0 (by simp)
          simpa using this
        have hqv : input.getD (pos + 1) 0 = q := by
          have := prefix_getD hpre 1 (by simp)
          simpa using this
        refine ih (pos + 2) (by omega) (by omega) ?_ c hc
        have hs1 : slice input start (pos + 1) =
            slice input start pos ++ [input.getD pos 0] :=
          slice_snoc hsp (by omega)
        have hs2 : slice input start (pos + 2) =
            slice input start (pos + 1) ++ [input.getD (pos + 1) 0] :=
          slice_snoc (by omega) (by omega)
        rw [hs2, hs1]
        have hlen1 : (slice input start pos ++ [input.getD pos 0]).length =
            (slice input start pos).length + 1 := by simp
        apply noUnescaped_snoc
        · apply noUnescaped_snoc hinv
          intro hbq
          simp only [Nat.add_zero] at h92
          rw [h92] at hbq
          exact absurd hbq.symm hq
        · intro _
          refine ⟨by simp, ?_⟩
          rw [hlen1]
          simp only [Nat.add_sub_cancel]
          rw [List.getD_append_right _ _ _ _ (le_refl _)]
          simpa using h92
      · split at hc
        · -- closing quote: value ends just before it
          cases hc
          exact hinv
        · -- ordinary byte, which is not the quote byte
          rename_i hnesc hnq
          have hrc : runeCount input ≤ input.length := runeCount_le_length input
          have hplt : pos < input.length := by omega
          have hne := not_prefix_getD hnq hplt
          refine ih (pos + 1) (by omega) (by omega) ?_ c hc
          rw [slice_snoc hsp hplt]
          apply noUnescaped_snoc hinv
          intro hbq
          exact absurd hbq hne
    · cases hc

theorem quotedScan_esc (input : List Nat) (q : Nat) (hq : q ≠ 92) (start : Nat)
    (hsl : start ≤ input.length) (c : Nat)
    (hc : quotedScan input q start = .closed c) :
    noUnescaped q (slice input start c) :=
  quotedScanF_esc _ input q hq start start (le_refl _) hsl
    (by rw [slice_self]; exact noUnescaped_nil q) c hc

/-- The escape invariant a quoted-literal token's text satisfies: every
copy of its own delimiter inside the text is preceded by a backslash. -/
def litEscOK (t : Token) : Prop :=
  (t.type = .singleQuotedStringLiteral → noUnescaped 39 t.value) ∧
  (t.type = .doubleQuotedStringLiteral → noUnescaped 34 t.value)

theorem litEscOK_nonlit {ty : TokenType} {v : List Nat}
    (h1 : ty ≠ .singleQuotedStringLiteral) (h2 : ty ≠ .doubleQuotedStringLiteral) :
    litEscOK ⟨ty, v⟩ :=
  ⟨fun h => absurd h h1, fun h => absurd h h2⟩

theorem tokensOK_append {ls : List Token} {t : Token}
    (h : ∀ x ∈ ls, litEscOK x) (ht : litEscOK t) :
    ∀ x ∈ ls ++ [t], litEscOK x := by
  intro x hx
  rcases List.mem_append.mp hx with hx | hx
  · exact h x hx
  · rcases List.mem_singleton.mp hx with rfl
    exact ht

/-- The property every lexer step result satisfies: it halts, or it
continues with a strictly larger in-bounds position; either way the input
is untouched and every token not already present beforehand satisfies the
escape invariant. -/
def StepOK (input : List Nat) (pos0 : Nat) (tokens0 : List Token) (r : StepRes) : Prop :=
  (∃ L', r = .halt L' ∧ L'.input = input ∧
    ∀ t ∈ L'.tokens, t ∈ tokens0 ∨ litEscOK t) ∨
  (∃ L', r = .next L' ∧ L'.input = input ∧ pos0 < L'.position ∧
    L'.position ≤ input.length ∧ ∀ t ∈ L'.tokens, t ∈ tokens0 ∨ litEscOK t)

theorem StepOK_mono {input : List Nat} {pos0 pos1 : Nat} {tokens0 : List Token}
    {r : StepRes} (h : StepOK input pos1 tokens0 r) (hp : pos0 ≤ pos1) :
    StepOK input pos0 tokens0 r := by
  rcases h with h | ⟨L', h1, h2, h3, h4, h5⟩
  · exact Or.inl h
  · exact Or.inr ⟨L', h1, h2, by omega, h4, h5⟩

theorem tokensExt_append {tokens0 ls : List Token} {t : Token}
    (h : ∀ x ∈ ls, x ∈ tokens0 ∨ litEscOK x) (ht : litEscOK t) :
    ∀ x ∈ ls ++ [t], x ∈ tokens0 ∨ litEscOK x := by
  intro x hx
  rcases List.mem_append.mp hx with hx | hx
  · exact h x hx
  · rcases List.mem_singleton.mp hx with rfl
    exact Or.inr ht

theorem tokensExt_refl (tokens0 : List Token) :
    ∀ x ∈ tokens0, x ∈ tokens0 ∨ litEscOK x :=
  fun _ hx => Or.inl hx

theorem finishOrContinue_spec (L : Lexer) (pos0 : Nat) (tokens0 : List Token)
    (hlt : pos0 < L.position) (hle : L.position ≤ L.input.length)
    (htok : ∀ x ∈ L.tokens, x ∈ tokens0 ∨ litEscOK x) :
    StepOK L.input pos0 tokens0 L.finishOrContinue := by
  unfold Lexer.finishOrContinue
  split
  · refine Or.inl ⟨_, rfl, rfl, ?_⟩
    exact tokensExt_append htok (litEscOK_nonlit (by simp) (by simp))
  · exact Or.inr ⟨L, rfl, rfl, hlt, hle, htok⟩

theorem lexSimpleToken_spec (L : Lexer) (k : Nat) (t : TokenType)
    (hk : 0 < k) (hle : L.position + k ≤ L.input.length)
    (ht1 : t ≠ .singleQuotedStringLiteral) (ht2 : t ≠ .doubleQuotedStringLiteral) :
    StepOK L.input L.position L.tokens (lexSimpleToken L k t) := by
  unfold lexSimpleToken
  have h := finishOrContinue_spec (L.emitRange L.position (L.position + k) t)
    L.position L.tokens (by simp [Lexer.emitRange]; omega)
    (by simp [Lexer.emitRange]; omega)
    (by simp only [Lexer.emitRange]
        exact tokensExt_append (tokensExt_refl L.tokens) (litEscOK_nonlit ht1 ht2))
  simpa [Lexer.emitRange] using h

theorem lexLeftParenthesis_spec (L : Lexer)
    (hle : L.position + 1 ≤ L.input.length) :
    StepOK L.input L.position L.tokens (lexLeftParenthesis L) := by
  unfold lexLeftParenthesis
  split
  · refine Or.inl ⟨_, rfl, rfl, ?_⟩
    simp only [Lexer.errorf, Lexer.emitRange]
    apply tokensExt_append
    · exact tokensExt_append (tokensExt_refl L.tokens)
        (litEscOK_nonlit (by simp) (by simp))
    · exact litEscOK_nonlit (by simp) (by simp)
  · refine Or.inr ⟨_, rfl, rfl, by simp [Lexer.emitRange],
      by simp [Lexer.emitRange]; omega, ?_⟩
    simp only [Lexer.emitRange]
    exact tokensExt_append (tokensExt_refl L.tokens)
      (litEscOK_nonlit (by simp) (by simp))

theorem lexRightParenthesis_spec (L : Lexer)
    (hle : L.position + 1 ≤ L.input.length) :
    StepOK L.input L.position L.tokens (lexRightParenthesis L) := by
  unfold lexRightParenthesis
  have h := finishOrContinue_spec
    { L.emitRange L.position (L.position + 1) .rightParenthesis with
      openParenthesisCount := L.openParenthesisCount - 1 }
    L.position L.tokens (by simp [Lexer.emitRange])
    (by simp [Lexer.emitRange]; omega)
    (by simp only [Lexer.emitRange]
        exact tokensExt_append (tokensExt_refl L.tokens)
          (litEscOK_nonlit (by simp) (by simp)))
  simpa [Lexer.emitRange] using h

theorem lexSingleQuotedString_spec (L : Lexer)
    (hle : L.position + 1 ≤ L.input.length) :
    StepOK L.input L.position L.tokens (lexSingleQuotedString L) := by
  unfold lexSingleQuotedString
  split
  · rename_i c hscan
    have hbnd := (quotedScan_bounds L.input 39 (L.position + 1) (by omega)).1 c hscan
    refine Or.inr ⟨_, rfl, rfl, by simp [Lexer.emitRange]; omega,
      by simp [Lexer.emitRange]; omega, ?_⟩
    simp only [Lexer.emitRange]
    apply tokensExt_append (tokensExt_refl L.tokens)
    constructor
    · intro _
      exact quotedScan_esc L.input 39 (by omega) (L.position + 1) (by omega) c hscan
    · intro habs
      simp at habs
  · refine Or.inl ⟨_, rfl, rfl, ?_⟩
    simp only [Lexer.errorf, Lexer.emitRange]
    exact tokensExt_append (tokensExt_refl L.tokens)
      (litEscOK_nonlit (by simp) (by simp))

theorem lexDoubleQuotedString_spec (L : Lexer)
    (hle : L.position + 1 ≤ L.input.length) :
    StepOK L.input L.position L.tokens (lexDoubleQuotedString L) := by
  unfold lexDoubleQuotedString
  split
  · rename_i c hscan
    have hbnd := (quotedScan_bounds L.input 34 (L.position + 1) (by omega)).1 c hscan
    refine Or.inr ⟨_, rfl, rfl, by simp [Lexer.emitRange]; omega,
      by simp [Lexer.emitRange]; omega, ?_⟩
    simp only [Lexer.emitRange]
    apply tokensExt_append (tokensExt_refl L.tokens)
    constructor
    · intro habs
      simp at habs
    · intro _
      exact quotedScan_esc L.input 34 (by omega) (L.position + 1) (by omega) c hscan
  · refine Or.inl ⟨_, rfl, rfl, ?_⟩
    simp only [Lexer.errorf, Lexer.emitRange]
    exact tokensExt_append (tokensExt_refl L.tokens)
      (litEscOK_nonlit (by simp) (by simp))

theorem lexDispatch_spec (L : Lexer) (hpos : L.position ≤ L.input.length) :
    StepOK L.input L.position L.tokens (lexDispatch L) := by
  unfold lexDispatch
  by_cases h0 : L.position ≥ runeCount L.input
  · rw [if_pos h0]
    refine Or.inl ⟨_, rfl, rfl, ?_⟩
    exact tokensExt_append (tokensExt_refl L.tokens)
      (litEscOK_nonlit (by simp) (by simp))
  rw [if_neg h0]
  by_cases h1 : [40].isPrefixOf (L.input.drop L.position) = true
  · rw [if_pos h1]
    have hb := prefix_drop_bound (l := [40]) h1 (by simp)
    simp only [List.length_cons, List.length_nil] at hb
    exact lexLeftParenthesis_spec L (by omega)
  rw [if_neg h1]
  by_cases h2 : [41].isPrefixOf (L.input.drop L.position) = true
  · rw [if_pos h2]
    have hb := prefix_drop_bound (l := [41]) h2 (by simp)
    simp only [List.length_cons, List.length_nil] at hb
    exact lexRightParenthesis_spec L (by omega)
  rw [if_neg h2]
  by_cases h3 : [44].isPrefixOf (L.input.drop L.position) = true
  · rw [if_pos h3]
    have hb := prefix_drop_bound (l := [44]) h3 (by simp)
    simp only [List.length_cons, List.length_nil] at hb
    exact lexSimpleToken_spec L 1 .comma (by omega) (by omega) (by simp) (by simp)
  rw [if_neg h3]
  by_cases h4 : [39].isPrefixOf (L.input.drop L.position) = true
  · rw [if_pos h4]
    have hb := prefix_drop_bound (l := [39]) h4 (by simp)
    simp only [List.length_cons, List.length_nil] at hb
    exact lexSingleQuotedString_spec L (by omega)
  rw [if_neg h4]
  by_cases h5 : [34].isPrefixOf (L.input.drop L.position) = true
  · rw [if_pos h5]
    have hb := prefix_drop_bound (l := [34]) h5 (by simp)
    simp only [List.length_cons, List.length_nil] at hb
    exact lexDoubleQuotedString_spec L (by omega)
  rw [if_neg h5]
  by_cases h6 : [33].isPrefixOf (L.input.drop L.position) = true
  · rw [if_pos h6]
    have hb := prefix_drop_bound (l := [33]) h6 (by simp)
    simp only [List.length_cons, List.length_nil] at hb
    exact lexSimpleToken_spec L 1 .not (by omega) (by omega) (by simp) (by simp)
  rw [if_neg h6]
  by_cases h7 : [38, 38].isPrefixOf (L.input.drop L.position) = true
  · rw [if_pos h7]
    have hb := prefix_drop_bound (l := [38, 38]) h7 (by simp)
    simp only [List.length_cons, List.length_nil] at hb
    exact lexSimpleToken_spec L 2 .and (by omega) (by omega) (by simp) (by simp)
  rw [if_neg h7]
  by_cases h8 : [124, 124].isPrefixOf (L.input.drop L.position) = true
  · rw [if_pos h8]
    have hb := prefix_drop_bound (l := [124, 124]) h8 (by simp)
    simp only [List.length_cons, List.length_nil] at hb
    exact lexSimpleToken_spec L 2 .or (by omega) (by omega) (by simp) (by simp)
  rw [if_neg h8]
  by_cases h9 : [61, 61].isPrefixOf (L.input.drop L.position) = true
  · rw [if_pos h9]
    have hb := prefix_drop_bound (l := [61, 61]) h9 (by simp)
    simp only [List.length_cons, List.length_nil] at hb
    exact lexSimpleToken_spec L 2 .stringEqual (by omega) (by omega) (by simp) (by simp)
  rw [if_neg h9]
  by_cases h10 : [126, 61].isPrefixOf (L.input.drop L.position) = true
  · rw [if_pos h10]
    have hb := prefix_drop_bound (l := [126, 61]) h10 (by simp)
    simp only [List.length_cons, List.length_nil] at hb
    exact lexSimpleToken_spec L 2 .regexEqual (by omega) (by omega) (by simp) (by simp)
  rw [if_neg h10]
  by_cases h11 : [115, 104, 97, 49].isPrefixOf ((L.input.drop L.position).map asciiLower) = true
  · rw [if_pos h11]
    have hb := prefix_length_le h11
    simp only [List.length_cons, List.length_nil, List.length_map, List.length_drop] at hb
    exact lexSimpleToken_spec L 4 .sha1 (by omega) (by omega) (by simp) (by simp)
  rw [if_neg h11]
  refine Or.inl ⟨_, rfl, rfl, ?_⟩
  simpa [Lexer.errorf] using tokensExt_refl L.tokens

/-- One flattened lexer step either halts or strictly advances the scan
position while keeping it within the input's byte length, never touches
the input, and only appends tokens satisfying the escape invariant. -/
theorem lexStep_spec (L : Lexer) (hpos : L.position ≤ L.input.length) :
    StepOK L.input L.position L.tokens (lexStep L) := by
  unfold lexStep
  have hp1 : L.position ≤ eatWhitespaces L.input L.position :=
    eatWhitespaces_ge L.input L.position
  have hp2 : eatWhitespaces L.input L.position ≤ L.input.length :=
    eatWhitespaces_le L.input L.position hpos
  have h := lexDispatch_spec { L with position := eatWhitespaces L.input L.position }
    (by simpa using hp2)
  exact StepOK_mono (by simpa using h) hp1

/-- Running the lexer with fuel exceeding the remaining byte count always
halts, preserves the input, and extends the tokens only with tokens that
satisfy the escape invariant. -/
theorem lexRun_spec (fuel : Nat) (L : Lexer)
    (hpos : L.position ≤ L.input.length)
    (hfuel : L.input.length - L.position < fuel) :
    ∃ L', lexRun fuel L = some L' ∧ L'.input = L.input ∧
      ∀ x ∈ L'.tokens, x ∈ L.tokens ∨ litEscOK x := by
  induction fuel generalizing L with
  | zero => omega
  | succ fuel ih =>
    have hstep := lexStep_spec L hpos
    rcases hstep with ⟨L', heq, hin, htk⟩ | ⟨L', heq, hin, hlt, hle, htk⟩
    · exact ⟨L', by simp [lexRun, heq], hin, htk⟩
    · have hrec := ih L' (by rw [hin]; exact hle) (by rw [hin]; omega)
      obtain ⟨L2, h1, h2, h3⟩ := hrec
      refine ⟨L2, by simp [lexRun, heq, h1], by rw [h2, hin], ?_⟩
      intro x hx
      rcases h3 x hx with hx2 | hx2
      · exact htk x hx2
      · exact Or.inr hx2

/-- The scan loop always terminates within `input.length + 1` steps. -/
theorem lexRun_isSome (input : List Nat) :
    (lexRun (input.length + 1) (Lexer.new input)).isSome := by
  obtain ⟨L', h, -, -⟩ := lexRun_spec (input.length + 1) (Lexer.new input)
    (by simp [Lexer.new]) (by simp [Lexer.new])
  simp [h]

/-- Every token of a finished scan satisfies the escape invariant. -/
theorem lexScan_esc (input : List Nat) :
    ∀ x ∈ (lexScan input).tokens, litEscOK x := by
  obtain ⟨L', h, -, htk⟩ := lexRun_spec (input.length + 1) (Lexer.new input)
    (by simp [Lexer.new]) (by simp [Lexer.new])
  intro x hx
  rw [lexScan, h] at hx
  rcases htk x hx with hx2 | hx2
  · simp [Lexer.new] at hx2
  · exact hx2

/-- `Lexer.Lex` only appends an error after the scan, so its tokens are
the scan's tokens. -/
theorem lexAll_tokens (input : List Nat) :
    (lexAll input).tokens = (lexScan input).tokens := by
  unfold lexAll
  split <;> simp [Lexer.errorf]

/-! ### Rule data model

`hook.Rules` (package `github.com/adnanh/webhook/hook`, an external
dependency) is a struct of four optional pointers of which the parser
always populates exactly one, so it is modelled as a sum.  The
`hook.MatchValue`/`hook.MatchRegex`/`hook.MatchHashSHA1` constants of the
external package are opaque distinct values, modelled as an enumeration;
the `hook.Source*` constants are the enumerated source set
`header`/`payload`/`query`/`string` named by the spec. -/

/-- The three `hook.Match*` type constants the parser assigns. -/
inductive MatchType where
  | value
  | regex
  | hashSHA1
deriving DecidableEq, Repr

/-- `hook.Argument` as populated by the parsers: `{Source, Name}`. -/
structure Argument where
  source : List Nat
  name : List Nat
deriving DecidableEq, Repr

/-- `hook.SourceHeader`. -/
def sourceHeader : List Nat := bytes "header"
/-- `hook.SourcePayload`. -/
def sourcePayload : List Nat := bytes "payload"
/-- `hook.SourceQuery`. -/
def sourceQuery : List Nat := bytes "query"
/-- `hook.SourceString`. -/
def sourceString : List Nat := bytes "string"

/-- `hook.MatchRule` (fields in source order; unset string fields keep the
Go zero value, the empty string). -/
structure MatchRule where
  type : MatchType
  regex : List Nat
  secret : List Nat
  value : List Nat
  parameter : Argument
deriving DecidableEq, Repr

/-- `hook.Rules` as the parser builds it: exactly one variant populated. -/
inductive Rule where
  | and (children : List Rule)
  | or (children : List Rule)
  | not (child : Rule)
  | matchRule (m : MatchRule)
deriving Repr

mutual
/-- The spec's tree invariant: `And`/`Or` nodes hold at least two
children, recursively. -/
def Rule.wf : Rule → Bool
  | .and cs => decide (2 ≤ cs.length) && wfAll cs
  | .or cs => decide (2 ≤ cs.length) && wfAll cs
  | .not c => Rule.wf c
  | .matchRule _ => true

def wfAll : List Rule → Bool
  | [] => true
  | r :: rs => Rule.wf r && wfAll rs
end

/-! ### Rule parser (`parser/parser.go`) -/

/-- The parser error messages of `parser.go`; every constructor carries
the token index passed to `parser.Error` (from which Go reconstructs the
absolute offset), and the two wrapping errors embed the nested error. -/
inductive PErrKind where
  | unexpectedToken (tokenPos : Nat)
  | invalidRule (tokenPos : Nat)
  | expectedValidRule (tokenPos : Nat)
  | invalidArgumentFormat (tokenPos : Nat)
  | invalidParameterSource (tokenPos : Nat)
  | invalidParameterName (tokenPos : Nat)
  | invalidSha1Target (tokenPos : Nat)
  | errorParsingExpressionGroup (inner : PErrKind) (tokenPos : Nat)
  | errorParsingNotRule (inner : PErrKind) (tokenPos : Nat)
deriving DecidableEq, Repr

/-- `Lexer.HasTokenTypeAt` on a token list. -/
def hasTT (ts : List Token) (i : Nat) (t : TokenType) : Bool :=
  match ts[i]? with
  | some tok => tok.type = t
  | none => false

/-- A single- or double-quoted string literal at index `i` (the literal
alternatives in every `Parser.hasPrefix` case). -/
def isLit (ts : List Token) (i : Nat) : Bool :=
  hasTT ts i .singleQuotedStringLiteral || hasTT ts i .doubleQuotedStringLiteral

/-- `parser.Lexer.Tokens[i].Value` (the parser only reads values at
indices its `hasPrefix` checks have validated). -/
def tokValue (ts : List Token) (i : Nat) : List Nat :=
  ((ts[i]?).map Token.value).getD []

/-- Split a byte string at the first occurrence of `c`:
`strings.SplitN(s, c, 2)` yields two parts exactly when this is `some`. -/
def splitFirst (c : Nat) : List Nat → Option (List Nat × List Nat)
  | [] => none
  | b :: rest =>
    if b = c then some ([], rest)
    else (splitFirst c rest).map (fun pq => (b :: pq.1, pq.2))

/-- Outcome kinds of the argument-literal validation. -/
inductive ArgErr where
  | invalidArgumentFormat
  | invalidParameterSource
  | invalidParameterName
deriving DecidableEq, Repr

/-- The argument-literal validation block that `parser.go` repeats in its
`matchValue`, `matchRegex` and `matchHashSHA1` cases and
`argumentParser.go` repeats in its `argument` case: split on the first
dot (`strings.SplitN(source, ".", 2)`), require two parts, a source from
the enumerated set, and a non-empty name. -/
def parseArgumentLiteral (s : List Nat) : Except ArgErr Argument :=
  match splitFirst 46 s with
  | none => .error .invalidArgumentFormat
  | some (pre, post) =>
    if pre ≠ sourceHeader ∧ pre ≠ sourcePayload ∧ pre ≠ sourceQuery ∧ pre ≠ sourceString then
      .error .invalidParameterSource
    else if post = [] then .error .invalidParameterName
    else .ok { source := pre, name := post }

/-- The `PErrKind` produced for each argument-literal failure (the token
position is the literal's index, as in each inlined block of `parser.go`). -/
def argErrToPErr (e : ArgErr) (pos : Nat) : PErrKind :=
  match e with
  | .invalidArgumentFormat => .invalidArgumentFormat pos
  | .invalidParameterSource => .invalidParameterSource pos
  | .invalidParameterName => .invalidParameterName pos

/-- The level-closing validation at the end of `Parser.parseRule`
(`pos` is `parser.Position` when the loop sets `done`). -/
def closeLevel (pos : Nat) (subRules : List Rule) (isAnd isOr expectingRule : Bool) :
    Option (Except (PErrKind × Nat) (Rule × Nat)) :=
  if subRules.length = 0 then some (.error (.invalidRule pos, pos))
  else if expectingRule then some (.error (.expectedValidRule pos, pos))
  else if isAnd then
    if subRules.length = 1 then some (.error (.unexpectedToken (pos - 1), pos))
    else some (.ok (.and subRules, pos))
  else if isOr then
    if subRules.length = 1 then some (.error (.unexpectedToken (pos - 1), pos))
    else some (.ok (.or subRules, pos))
  else some (.ok (subRules.headD (.and []), pos))

/-- `Parser.parseRule`: the token-cursor loop with its accumulated sibling
list and the `isAnd`/`isOr`/`expectingRule` flags; recursion for `!(` and
`(` groups.  Errors are pairs of the message and the value of
`parser.Position` at the moment the error was created (the wrapping cases
read that mutated position back).  `none` signals fuel exhaustion; the
`Parse` wrapper passes enough fuel for any token list. -/
def parseRuleLoop (fuel : Nat) (ts : List Token) (depth : Nat) (pos : Nat)
    (subRules : List Rule) (isAnd isOr expectingRule : Bool) :
    Option (Except (PErrKind × Nat) (Rule × Nat)) :=
  match fuel with
  | 0 => none
  | fuel + 1 =>
    if hasTT ts pos .and then
      if subRules.length = 0 || expectingRule then
        some (.error (.unexpectedToken pos, pos))
      else
        let subRules := if isOr then [Rule.or subRules] else subRules
        parseRuleLoop fuel ts depth (pos + 1) subRules true false true
    else if hasTT ts pos .or then
      if subRules.length = 0 || expectingRule then
        some (.error (.unexpectedToken pos, pos))
      else
        let subRules := if isAnd then [Rule.and subRules] else subRules
        parseRuleLoop fuel ts depth (pos + 1) subRules false true true
    else if hasTT ts pos .not && hasTT ts (pos + 1) .leftParenthesis then
      match parseRuleLoop fuel ts (depth + 1) (pos + 2) [] false false false with
      | none => none
      | some (.error (e, p)) => some (.error (.errorParsingNotRule e (p - 2), p))
      | some (.ok (r, p)) =>
        parseRuleLoop fuel ts depth p (subRules ++ [.not r]) isAnd isOr false
    else if isLit ts pos && hasTT ts (pos + 1) .stringEqual && isLit ts (pos + 2) then
      match parseArgumentLiteral (tokValue ts pos) with
      | .error e => some (.error (argErrToPErr e pos, pos))
      | .ok argument =>
        let m : MatchRule :=
          { type := .value, regex := [], secret := [],
            value := tokValue ts (pos + 2), parameter := argument }
        parseRuleLoop fuel ts depth (pos + 3) (subRules ++ [.matchRule m]) isAnd isOr false
    else if isLit ts pos && hasTT ts (pos + 1) .regexEqual && isLit ts (pos + 2) then
      match parseArgumentLiteral (tokValue ts pos) with
      | .error e => some (.error (argErrToPErr e pos, pos))
      | .ok argument =>
        let m : MatchRule :=
          { type := .regex, regex := tokValue ts (pos + 2), secret := [],
            value := [], parameter := argument }
        parseRuleLoop fuel ts depth (pos + 3) (subRules ++ [.matchRule m]) isAnd isOr false
    else if isLit ts pos && hasTT ts (pos + 1) .stringEqual && hasTT ts (pos + 2) .sha1 &&
        hasTT ts (pos + 3) .leftParenthesis && isLit ts (pos + 4) &&
        hasTT ts (pos + 5) .comma && isLit ts (pos + 6) &&
        hasTT ts (pos + 7) .rightParenthesis then
      if tokValue ts (pos + 4) ≠ sourcePayload then
        some (.error (.invalidSha1Target (pos + 4), pos))
      else
        match parseArgumentLiteral (tokValue ts pos) with
        | .error e => some (.error (argErrToPErr e pos, pos))
        | .ok argument =>
          let m : MatchRule :=
            { type := .hashSHA1, regex := [], secret := tokValue ts (pos + 6),
              value := [], parameter := argument }
          parseRuleLoop fuel ts depth (pos + 8) (subRules ++ [.matchRule m]) isAnd isOr false
    else if hasTT ts pos .leftParenthesis then
      match parseRuleLoop fuel ts (depth + 1) (pos + 1) [] false false false with
      | none => none
      | some (.error (e, p)) => some (.error (.errorParsingExpressionGroup e (p - 1), p))
      | some (.ok (r, p)) =>
        parseRuleLoop fuel ts depth p (subRules ++ [r]) isAnd isOr false
    else if hasTT ts pos .rightParenthesis then
      closeLevel (pos + 1) subRules isAnd isOr expectingRule
    else if !hasTT ts pos .eof then
      some (.error (.unexpectedToken pos, pos))
    else
      closeLevel pos subRules isAnd isOr expectingRule

/-- Outcome of `parser.Parser.Parse`: the first lexer error if any,
otherwise the result of `parseRule(1)` (on success the final token
position is discarded, as Go discards it — leftover tokens are ignored). -/
inductive ParseResult where
  | lexError (e : LexErr)
  | parseError (e : PErrKind) (pos : Nat)
  | ok (r : Rule)
  | outOfFuel
deriving Repr

/-- `parser.Parser.Parse` (`parser/parser.go`). -/
def Parse (input : List Nat) : ParseResult :=
  match (lexAll input).errors with
  | e :: _ => .lexError e
  | [] =>
    match parseRuleLoop (2 * (lexAll input).tokens.length + 2)
        (lexAll input).tokens 1 0 [] false false false with
    | none => .outOfFuel
    | some (.error (e, p)) => .parseError e p
    | some (.ok (r, _)) => .ok r

/-! ### The tree invariant of successful rule parses -/

theorem wfAll_iff (rs : List Rule) :
    wfAll rs = true ↔ ∀ r ∈ rs, r.wf = true := by
  induction rs with
  | nil => simp [wfAll]
  | cons r rs ih => simp [wfAll, Bool.and_eq_true, ih]

theorem wfAll_append {subRules : List Rule} {x : Rule}
    (hall : ∀ y ∈ subRules, y.wf = true) (hx : x.wf = true) :
    ∀ y ∈ subRules ++ [x], y.wf = true := by
  intro y hy
  rcases List.mem_append.mp hy with hy | hy
  · exact hall y hy
  · rcases List.mem_singleton.mp hy with rfl
    exact hx

theorem headD_mem {rs : List Rule} (h : rs.length ≠ 0) (d : Rule) :
    rs.headD d ∈ rs := by
  cases rs with
  | nil => simp at h
  | cons r rs => simp

theorem closeLevel_wf (pos : Nat) (subRules : List Rule) (a o e : Bool)
    (hall : ∀ x ∈ subRules, x.wf = true) (r : Rule) (p : Nat)
    (h : closeLevel pos subRules a o e = some (.ok (r, p))) : r.wf = true := by
  unfold closeLevel at h
  by_cases h0 : subRules.length = 0
  · rw [if_pos h0] at h
    simp at h
  rw [if_neg h0] at h
  by_cases he : e = true
  · rw [if_pos he] at h
    simp at h
  rw [if_neg he] at h
  by_cases ha : a = true
  · rw [if_pos ha] at h
    by_cases h1 : subRules.length = 1
    · rw [if_pos h1] at h
      simp at h
    · rw [if_neg h1] at h
      simp only [Option.some.injEq, Except.ok.injEq, Prod.mk.injEq] at h
      obtain ⟨hr, -⟩ := h
      subst hr
      rw [Rule.wf]
      simp only [Bool.and_eq_true, decide_eq_true_eq]
      exact ⟨by omega, (wfAll_iff subRules).mpr hall⟩
  rw [if_neg ha] at h
  by_cases ho : o = true
  · rw [if_pos ho] at h
    by_cases h1 : subRules.length = 1
    · rw [if_pos h1] at h
      simp at h
    · rw [if_neg h1] at h
      simp only [Option.some.injEq, Except.ok.injEq, Prod.mk.injEq] at h
      obtain ⟨hr, -⟩ := h
      subst hr
      rw [Rule.wf]
      simp only [Bool.and_eq_true, decide_eq_true_eq]
      exact ⟨by omega, (wfAll_iff subRules).mpr hall⟩
  rw [if_neg ho] at h
  simp only [Option.some.injEq, Except.ok.injEq, Prod.mk.injEq] at h
  obtain ⟨hr, -⟩ := h
  subst hr
  exact hall _ (headD_mem h0 _)

/-- The flag invariant survives appending one operand and clearing the
pending-operand flag. -/
theorem flagInv_append (subRules : List Rule) (x : Rule) (fl expecting : Bool)
    (hfl : fl = true → (expecting = true → 1 ≤ subRules.length) ∧
      (expecting = false → 2 ≤ subRules.length)) :
    fl = true → ((false : Bool) = true → 1 ≤ (subRules ++ [x]).length) ∧
      ((false : Bool) = false → 2 ≤ (subRules ++ [x]).length) := by
  intro hf
  refine ⟨?_, ?_⟩
  · intro hc
    cases hc
  · intro h2
    have h1 := hfl hf
    simp only [List.length_append, List.length_cons, List.length_nil]
    rcases Bool.eq_false_or_eq_true expecting with he | he
    · have := h1.1 he
      omega
    · have := h1.2 he
      omega

/-- Loop invariant of `parseRule`: accumulated siblings are well formed,
and whenever a binary-operator flag is set the sibling list has at least
one element while an operand is pending and at least two once it arrived.
Every rule a call with valid state returns is then well formed. -/
theorem parseRuleLoop_wf (fuel : Nat) :
    ∀ (ts : List Token) (depth pos : Nat) (subRules : List Rule)
      (isAnd isOr expecting : Bool) (r : Rule) (p : Nat),
    (∀ x ∈ subRules, x.wf = true) →
    (isAnd = true → (expecting = true → 1 ≤ subRules.length) ∧
      (expecting = false → 2 ≤ subRules.length)) →
    (isOr = true → (expecting = true → 1 ≤ subRules.length) ∧
      (expecting = false → 2 ≤ subRules.length)) →
    parseRuleLoop fuel ts depth pos subRules isAnd isOr expecting =
      some (.ok (r, p)) →
    r.wf = true := by
  induction fuel with
  | zero =>
    intro ts depth pos subRules isAnd isOr expecting r p _ _ _ h
    simp [parseRuleLoop] at h
  | succ fuel ih =>
    intro ts depth pos subRules isAnd isOr expecting r p hall hA hO h
    rw [parseRuleLoop] at h
    by_cases c1 : hasTT ts pos .and = true
    · rw [if_pos c1] at h
      by_cases g1 : (decide (subRules.length = 0) || expecting) = true
      · rw [if_pos g1] at h
        simp at h
      rw [if_neg g1] at h
      simp only [Bool.or_eq_true, decide_eq_true_eq, not_or,
        Bool.not_eq_true] at g1
      obtain ⟨glen, gexp⟩ := g1
      by_cases ho : isOr = true
      · simp only [ho, if_true] at h
        refine ih ts depth (pos + 1) [Rule.or subRules] true false true r p ?_ ?_ ?_ h
        · intro x hx
          rcases List.mem_singleton.mp hx with rfl
          rw [Rule.wf]
          simp only [Bool.and_eq_true, decide_eq_true_eq]
          have h2 := (hO ho).2 gexp
          exact ⟨by omega, (wfAll_iff subRules).mpr hall⟩
        · intro _
          exact ⟨fun _ => by simp, fun hc => by cases hc⟩
        · intro hc
          cases hc
      · simp only [Bool.not_eq_true] at ho
        simp only [ho, Bool.false_eq_true, if_false] at h
        refine ih ts depth (pos + 1) subRules true false true r p hall ?_ ?_ h
        · intro _
          refine ⟨fun _ => by omega, fun hc => by cases hc⟩
        · intro hc
          cases hc
    · rw [if_neg c1] at h
      by_cases c2 : hasTT ts pos .or = true
      · rw [if_pos c2] at h
        by_cases g1 : (decide (subRules.length = 0) || expecting) = true
        · rw [if_pos g1] at h
          simp at h
        rw [if_neg g1] at h
        simp only [Bool.or_eq_true, decide_eq_true_eq, not_or,
          Bool.not_eq_true] at g1
        obtain ⟨glen, gexp⟩ := g1
        by_cases ha : isAnd = true
        · simp only [ha, if_true] at h
          refine ih ts depth (pos + 1) [Rule.and subRules] false true true r p ?_ ?_ ?_ h
          · intro x hx
            rcases List.mem_singleton.mp hx with rfl
            rw [Rule.wf]
            simp only [Bool.and_eq_true, decide_eq_true_eq]
            have h2 := (hA ha).2 gexp
            exact ⟨by omega, (wfAll_iff subRules).mpr hall⟩
          · intro hc
            cases hc
          · intro _
            exact ⟨fun _ => by simp, fun hc => by cases hc⟩
        · simp only [Bool.not_eq_true] at ha
          simp only [ha, Bool.false_eq_true, if_false] at h
          refine ih ts depth (pos + 1) subRules false true true r p hall ?_ ?_ h
          · intro hc
            cases hc
          · intro _
            refine ⟨fun _ => by omega, fun hc => by cases hc⟩
      · rw [if_neg c2] at h
        by_cases c3 : (hasTT ts pos .not && hasTT ts (pos + 1) .leftParenthesis) = true
        · rw [if_pos c3] at h
          rcases hrec : parseRuleLoop fuel ts (depth + 1) (pos + 2) [] false false false
            with _ | res
          · rw [hrec] at h
            simp at h
          · rcases res with ep | rp
            · rw [hrec] at h
              simp at h
            · obtain ⟨r1, p1⟩ := rp
              rw [hrec] at h
              simp only [] at h
              have hchild : r1.wf = true :=
                ih ts (depth + 1) (pos + 2) [] false false false r1 p1
                  (by intro x hx; simp at hx) (fun hc => by cases hc)
                  (fun hc => by cases hc) hrec
              refine ih ts depth p1 (subRules ++ [.not r1]) isAnd isOr false r p
                (wfAll_append hall (by rw [Rule.wf]; exact hchild))
                (flagInv_append _ _ _ _ hA) (flagInv_append _ _ _ _ hO) h
        · rw [if_neg c3] at h
          by_cases c4 : (isLit ts pos && hasTT ts (pos + 1) .stringEqual &&
              isLit ts (pos + 2)) = true
          · rw [if_pos c4] at h
            rcases hpal : parseArgumentLiteral (tokValue ts pos) with e | a
            · rw [hpal] at h
              simp at h
            · rw [hpal] at h
              simp only [] at h
              refine ih ts depth (pos + 3) (subRules ++ [_]) isAnd isOr false r p
                (wfAll_append hall (by rw [Rule.wf]))
                (flagInv_append _ _ _ _ hA) (flagInv_append _ _ _ _ hO) h
          · rw [if_neg c4] at h
            by_cases c5 : (isLit ts pos && hasTT ts (pos + 1) .regexEqual &&
                isLit ts (pos + 2)) = true
            · rw [if_pos c5] at h
              rcases hpal : parseArgumentLiteral (tokValue ts pos) with e | a
              · rw [hpal] at h
                simp at h
              · rw [hpal] at h
                simp only [] at h
                refine ih ts depth (pos + 3) (subRules ++ [_]) isAnd isOr false r p
                  (wfAll_append hall (by rw [Rule.wf]))
                  (flagInv_append _ _ _ _ hA) (flagInv_append _ _ _ _ hO) h
            · rw [if_neg c5] at h
              by_cases c6 : (isLit ts pos && hasTT ts (pos + 1) .stringEqual &&
                  hasTT ts (pos + 2) .sha1 && hasTT ts (pos + 3) .leftParenthesis &&
                  isLit ts (pos + 4) && hasTT ts (pos + 5) .comma &&
                  isLit ts (pos + 6) && hasTT ts (pos + 7) .rightParenthesis) = true
              · rw [if_pos c6] at h
                by_cases g2 : tokValue ts (pos + 4) ≠ sourcePayload
                · rw [if_pos g2] at h
                  simp at h
                · rw [if_neg g2] at h
                  rcases hpal : parseArgumentLiteral (tokValue ts pos) with e | a
                  · rw [hpal] at h
                    simp at h
                  · rw [hpal] at h
                    simp only [] at h
                    refine ih ts depth (pos + 8) (subRules ++ [_]) isAnd isOr false r p
                      (wfAll_append hall (by rw [Rule.wf]))
                      (flagInv_append _ _ _ _ hA) (flagInv_append _ _ _ _ hO) h
              · rw [if_neg c6] at h
                by_cases c7 : hasTT ts pos .leftParenthesis = true
                · rw [if_pos c7] at h
                  rcases hrec : parseRuleLoop fuel ts (depth + 1) (pos + 1)
                    [] false false false with _ | res
                  · rw [hrec] at h
                    simp at h
                  · rcases res with ep | rp
                    · rw [hrec] at h
                      simp at h
                    · obtain ⟨r1, p1⟩ := rp
                      rw [hrec] at h
                      simp only [] at h
                      have hchild : r1.wf = true :=
                        ih ts (depth + 1) (pos + 1) [] false false false r1 p1
                          (by intro x hx; simp at hx) (fun hc => by cases hc)
                          (fun hc => by cases hc) hrec
                      refine ih ts depth p1 (subRules ++ [r1]) isAnd isOr false r p
                        (wfAll_append hall hchild)
                        (flagInv_append _ _ _ _ hA) (flagInv_append _ _ _ _ hO) h
                · rw [if_neg c7] at h
                  by_cases c8 : hasTT ts pos .rightParenthesis = true
                  · rw [if_pos c8] at h
                    exact closeLevel_wf (pos + 1) subRules isAnd isOr expecting hall r p h
                  · rw [if_neg c8] at h
                    by_cases c9 : (!hasTT ts pos .eof) = true
                    · rw [if_pos c9] at h
                      simp at h
                    · rw [if_neg c9] at h
                      exact closeLevel_wf pos subRules isAnd isOr expecting hall r p h

/-! ### Argument-list parser (`parser/argumentParser.go`) -/

/-- The error messages of `argumentParser.go`, each carrying the token
index passed to `ArgumentParser.Error`. -/
inductive AErrKind where
  | expectedArgument (tokenPos : Nat)
  | expectedComma (tokenPos : Nat)
  | unexpectedToken (tokenPos : Nat)
  | invalidArgumentFormat (tokenPos : Nat)
  | invalidParameterSource (tokenPos : Nat)
  | invalidParameterName (tokenPos : Nat)
deriving DecidableEq, Repr

/-- The `AErrKind` produced for each argument-literal failure in
`argumentParser.go`. -/
def argErrToAErr (e : ArgErr) (pos : Nat) : AErrKind :=
  match e with
  | .invalidArgumentFormat => .invalidArgumentFormat pos
  | .invalidParameterSource => .invalidParameterSource pos
  | .invalidParameterName => .invalidParameterName pos

/-- `ArgumentParser.parseArguments`: the comma-list loop with its
`expectingArgument` flag (initially true at the wrapper). -/
def parseArgumentsLoop (fuel : Nat) (ts : List Token) (pos : Nat)
    (arguments : List Argument) (expectingArgument : Bool) :
    Option (Except AErrKind (List Argument)) :=
  match fuel with
  | 0 => none
  | fuel + 1 =>
    if isLit ts pos then
      if !expectingArgument then some (.error (.expectedComma pos))
      else
        match parseArgumentLiteral (tokValue ts pos) with
        | .error e => some (.error (argErrToAErr e pos))
        | .ok a => parseArgumentsLoop fuel ts (pos + 1) (arguments ++ [a]) false
    else if hasTT ts pos .comma then
      if expectingArgument then some (.error (.unexpectedToken pos))
      else parseArgumentsLoop fuel ts (pos + 1) arguments true
    else if !hasTT ts pos .eof then
      some (.error (.unexpectedToken pos))
    else if expectingArgument then
      some (.error (.expectedArgument pos))
    else
      some (.ok arguments)

/-- Outcome of `ArgumentParser.Parse`. -/
inductive ArgParseResult where
  | lexError (e : LexErr)
  | parseError (e : AErrKind)
  | ok (args : List Argument)
  | outOfFuel
deriving Repr

/-- `ArgumentParser.Parse` (`parser/argumentParser.go`). -/
def ParseArguments (input : List Nat) : ArgParseResult :=
  match (lexAll input).errors with
  | e :: _ => .lexError e
  | [] =>
    match parseArgumentsLoop ((lexAll input).tokens.length + 2)
        (lexAll input).tokens 0 [] true with
    | none => .outOfFuel
    | some (.error e) => .parseError e
    | some (.ok args) => .ok args

/-! ### Claim theorems -/

/-- Claim C5: every predicate tree a successful `Parse` returns is well
formed: each `And`/`Or` node has at least two children (recursively), a
run of length one is returned as the bare child, and violating input
fails rather than producing a one-child node. -/
theorem claim_C5 (input : List Nat) (r : Rule) (h : Parse input = .ok r) :
    r.wf = true := by
  unfold Parse at h
  rcases herr : (lexAll input).errors with _ | ⟨e, es⟩
  · rw [herr] at h
    simp only [] at h
    rcases hp : parseRuleLoop (2 * (lexAll input).tokens.length + 2)
        (lexAll input).tokens 1 0 [] false false false with _ | res
    · rw [hp] at h
      simp at h
    · rcases res with ep | rp
      · rw [hp] at h
        simp at h
      · obtain ⟨r1, p1⟩ := rp
        rw [hp] at h
        simp only [ParseResult.ok.injEq] at h
        subst h
        exact parseRuleLoop_wf _ _ _ _ _ _ _ _ _ _
          (by intro x hx; simp at hx) (fun hc => by cases hc)
          (fun hc => by cases hc) hp
  · rw [herr] at h
    simp at h

/-- Witness for C5 at a concrete conjunction. -/
theorem claim_C5_witness :
    Parse (bytes "\"header.a\"==\"1\"&&\"query.b\"==\"2\"") =
      .ok (.and
        [.matchRule { type := .value, regex := [], secret := [],
                      value := bytes "1", parameter := ⟨bytes "header", bytes "a"⟩ },
         .matchRule { type := .value, regex := [], secret := [],
                      value := bytes "2", parameter := ⟨bytes "query", bytes "b"⟩ }]) ∧
    (Rule.and
        [.matchRule { type := .value, regex := [], secret := [],
                      value := bytes "1", parameter := ⟨bytes "header", bytes "a"⟩ },
         .matchRule { type := .value, regex := [], secret := [],
                      value := bytes "2", parameter := ⟨bytes "query", bytes "b"⟩ }]).wf = true :=
  ⟨rfl, claim_C5 (bytes "\"header.a\"==\"1\"&&\"query.b\"==\"2\"") _ rfl⟩

/-- Claim C8: the input consisting of the four bytes of the single-quoted
literal holding one two-byte UTF-8 character (an e with acute accent) is
properly closed, yet the lexer reports the missing-closing-quotation-mark
error and emits no literal token: `IsEOF` compares the byte-indexed scan
position (which reaches 3 just after the second content byte) with the
rune count 3 of the 4-byte input, so the closing quote is never scanned. -/
theorem claim_C8 :
    (lexAll [39, 195, 169, 39]).errors =
      [.closingSingleQuotationMarkIsMissing 3] ∧
    (lexAll [39, 195, 169, 39]).tokens = [⟨.eof, []⟩] ∧
    runeCount [39, 195, 169, 39] = 3 ∧
    ([39, 195, 169, 39] : List Nat).length = 4 :=
  ⟨rfl, rfl, rfl, rfl⟩

/-- Claim C10 (lexer termination): the scan loop halts within
`input.length + 1` flattened steps on every input, and each step either
halts or strictly advances the scan position while keeping it within the
input's byte length. -/
theorem claim_C10 :
    (∀ input : List Nat, (lexRun (input.length + 1) (Lexer.new input)).isSome) ∧
    (∀ L : Lexer, L.position ≤ L.input.length →
      (∃ L', lexStep L = .halt L') ∨
      (∃ L', lexStep L = .next L' ∧ L.position < L'.position ∧
        L'.position ≤ L.input.length)) := by
  constructor
  · exact lexRun_isSome
  · intro L hpos
    rcases lexStep_spec L hpos with ⟨L', heq, -, -⟩ | ⟨L', heq, -, hlt, hle, -⟩
    · exact Or.inl ⟨L', heq⟩
    · exact Or.inr ⟨L', heq, hlt, hle⟩

/-- Witness for C10 at a concrete lexer state. -/
theorem claim_C10_witness :
    (lexRun ((bytes "(\"header.a\"==\"1\")").length + 1)
      (Lexer.new (bytes "(\"header.a\"==\"1\")"))).isSome ∧
    ((∃ L', lexStep (Lexer.new (bytes "abc")) = .halt L') ∨
      (∃ L', lexStep (Lexer.new (bytes "abc")) = .next L' ∧
        (Lexer.new (bytes "abc")).position < L'.position ∧
        L'.position ≤ (Lexer.new (bytes "abc")).input.length)) :=
  ⟨claim_C10.1 _, claim_C10.2 _ (by decide)⟩

/-- Counterexample to C4 as stated: lexing the single-quoted input
`a backslash quote b` yields the token text with the backslash kept
(bytes 97 92 39 98), not the unescaped text (bytes 97 39 98). -/
theorem claim_C4_cex :
    (lexAll [39, 97, 92, 39, 98, 39]).tokens =
      [⟨.singleQuotedStringLiteral, [97, 92, 39, 98]⟩, ⟨.eof, []⟩] ∧
    ([97, 92, 39, 98] : List Nat) ≠ [97, 39, 98] :=
  ⟨rfl, by decide⟩

/-- Claim C4 as amended: the emitted token text is the raw input slice
strictly between the delimiting quotes with escape sequences preserved
verbatim (no unescaping), and every literal token's text keeps each copy
of its own delimiter immediately preceded by a backslash. -/
theorem claim_C4 :
    ((lexAll [39, 97, 92, 39, 98, 39]).tokens =
      [⟨.singleQuotedStringLiteral, [97, 92, 39, 98]⟩, ⟨.eof, []⟩]) ∧
    (∀ input : List Nat, ∀ t ∈ (lexAll input).tokens,
      (t.type = .singleQuotedStringLiteral → noUnescaped 39 t.value) ∧
      (t.type = .doubleQuotedStringLiteral → noUnescaped 34 t.value)) := by
  refine ⟨rfl, ?_⟩
  intro input t ht
  rw [lexAll_tokens] at ht
  exact lexScan_esc input t ht

/-- Witness for C4's amended invariant at the concrete literal token. -/
theorem claim_C4_witness :
    noUnescaped 39 [97, 92, 39, 98] :=
  (claim_C4.2 [39, 97, 92, 39, 98, 39]
    ⟨.singleQuotedStringLiteral, [97, 92, 39, 98]⟩ (by decide)).1 rfl

/-- Counterexample to C3 as stated: the input with a trailing unmatched
right parenthesis parses successfully (the outermost level treats the
right parenthesis as its terminator and `Parse` ignores leftover tokens),
instead of failing. -/
theorem claim_C3_cex :
    Parse (bytes "\"header.b\"==\"c\")") =
      .ok (.matchRule { type := .value, regex := [], secret := [],
                        value := bytes "c", parameter := ⟨bytes "header", bytes "b"⟩ }) := rfl

/-- Claim C3 as amended: when the scan ends with a positive
open-parenthesis count, `Lexer.Lex` appends the missing-closing-parenthesis
error, and the parse then always fails (never returns a rule); an extra
unmatched right parenthesis, however, does not generally fail (see the
counterexample). -/
theorem claim_C3 (input : List Nat)
    (h : (lexScan input).openParenthesisCount > 0) :
    (lexAll input).errors = (lexScan input).errors ++
      [.closingParenthesisMissing (lexScan input).position] ∧
    (∀ r : Rule, Parse input ≠ .ok r) := by
  have herr : (lexAll input).errors = (lexScan input).errors ++
      [.closingParenthesisMissing (lexScan input).position] := by
    unfold lexAll
    rw [if_pos h]
    rfl
  refine ⟨herr, ?_⟩
  intro r hr
  unfold Parse at hr
  rw [herr] at hr
  rcases hes : (lexScan input).errors with _ | ⟨e, es⟩
  · rw [hes] at hr
    simp at hr
  · rw [hes] at hr
    simp at hr

/-- Witness for C3 at the concrete input of a single left parenthesis. -/
theorem claim_C3_witness :
    (lexAll (bytes "(")).errors = (lexScan (bytes "(")).errors ++
      [.closingParenthesisMissing (lexScan (bytes "(")).position] ∧
    (∀ r : Rule, Parse (bytes "(") ≠ .ok r) :=
  claim_C3 (bytes "(") (by decide)

/-- Counterexample to C9 as stated: the two-byte input quote-then-paren
ends in a left parenthesis, yet its error list holds only the
missing-closing-single-quotation-mark error — the quoted-literal scan
swallows the parenthesis and halts at end of input, so no parenthesis
error is ever recorded, let alone twice. -/
theorem claim_C9_cex :
    (lexAll [39, 40]).errors = [.closingSingleQuotationMarkIsMissing 2] ∧
    (∀ p, LexErr.closingParenthesisMissing p ∉ (lexAll [39, 40]).errors) := by
  refine ⟨rfl, ?_⟩
  intro p hp
  rw [(rfl : (lexAll [39, 40]).errors = [.closingSingleQuotationMarkIsMissing 2])] at hp
  exact absurd (List.mem_singleton.mp hp) (by simp)

/-- Claim C9 as amended: when the scan itself already recorded exactly the
missing-closing-parenthesis error (which happens when the trailing left
parenthesis is tokenized at end of input) and the open-parenthesis count
is still positive, `Lexer.Lex` appends a second copy, and both the rule
parser and the comma-list parser surface only the first error. -/
theorem claim_C9 (input : List Nat) (p : Nat)
    (h1 : (lexScan input).errors = [.closingParenthesisMissing p])
    (h2 : (lexScan input).openParenthesisCount > 0) :
    (lexAll input).errors = [.closingParenthesisMissing p,
      .closingParenthesisMissing (lexScan input).position] ∧
    Parse input = .lexError (.closingParenthesisMissing p) ∧
    ParseArguments input = .lexError (.closingParenthesisMissing p) := by
  have herr : (lexAll input).errors = [.closingParenthesisMissing p,
      .closingParenthesisMissing (lexScan input).position] := by
    unfold lexAll
    rw [if_pos h2]
    simp [Lexer.errorf, h1]
  refine ⟨herr, ?_, ?_⟩
  · unfold Parse
    rw [herr]
  · unfold ParseArguments
    rw [herr]

/-- Witness for C9 at the concrete input of a single left parenthesis. -/
theorem claim_C9_witness :
    (lexAll (bytes "(")).errors = [.closingParenthesisMissing 1,
      .closingParenthesisMissing (lexScan (bytes "(")).position] ∧
    Parse (bytes "(") = .lexError (.closingParenthesisMissing 1) ∧
    ParseArguments (bytes "(") = .lexError (.closingParenthesisMissing 1) :=
  claim_C9 (bytes "(") 1 rfl (by decide)

/-- Counterexample to C1 as stated: the or-then-and input regroups
left-associatively into an And of an Or, not into the claimed
`Or(a, And(b, c))`. -/
theorem claim_C1_cex :
    Parse (bytes "\"header.a\"==\"1\"||\"query.b\"==\"2\"&&\"payload.c\"==\"3\"") =
      .ok (.and
        [.or [.matchRule { type := .value, regex := [], secret := [],
                           value := bytes "1", parameter := ⟨bytes "header", bytes "a"⟩ },
              .matchRule { type := .value, regex := [], secret := [],
                           value := bytes "2", parameter := ⟨bytes "query", bytes "b"⟩ }],
         .matchRule { type := .value, regex := [], secret := [],
                      value := bytes "3", parameter := ⟨bytes "payload", bytes "c"⟩ }]) ∧
    (ParseResult.ok (Rule.and
        [.or [.matchRule { type := .value, regex := [], secret := [],
                           value := bytes "1", parameter := ⟨bytes "header", bytes "a"⟩ },
              .matchRule { type := .value, regex := [], secret := [],
                           value := bytes "2", parameter := ⟨bytes "query", bytes "b"⟩ }],
         .matchRule { type := .value, regex := [], secret := [],
                      value := bytes "3", parameter := ⟨bytes "payload", bytes "c"⟩ }]) ≠
      .ok (.or [.matchRule { type := .value, regex := [], secret := [],
                             value := bytes "1", parameter := ⟨bytes "header", bytes "a"⟩ },
                .and [.matchRule { type := .value, regex := [], secret := [],
                                   value := bytes "2", parameter := ⟨bytes "query", bytes "b"⟩ },
                      .matchRule { type := .value, regex := [], secret := [],
                                   value := bytes "3", parameter := ⟨bytes "payload", bytes "c"⟩ }]])) :=
  ⟨rfl, by simp⟩

/-- Claim C1 as amended: when the accumulating operator switches, the
previous run closes into a single node and the new operator keeps
accumulating left-associatively, for any three value-match blocks whose
left literals validate: and-then-or gives `Or(And(a,b),c)`, while
or-then-and gives `And(Or(a,b),c)` (not `Or(a,And(b,c))`). -/
theorem claim_C1 :
    (∀ (fuel : Nat) (v1 w1 v2 w2 v3 w3 : List Nat) (a1 a2 a3 : Argument),
      parseArgumentLiteral v1 = .ok a1 → parseArgumentLiteral v2 = .ok a2 →
      parseArgumentLiteral v3 = .ok a3 →
      (parseRuleLoop (fuel + 6)
        [⟨.doubleQuotedStringLiteral, v1⟩, ⟨.stringEqual, [61, 61]⟩,
         ⟨.doubleQuotedStringLiteral, w1⟩, ⟨.and, [38, 38]⟩,
         ⟨.doubleQuotedStringLiteral, v2⟩, ⟨.stringEqual, [61, 61]⟩,
         ⟨.doubleQuotedStringLiteral, w2⟩, ⟨.or, [124, 124]⟩,
         ⟨.doubleQuotedStringLiteral, v3⟩, ⟨.stringEqual, [61, 61]⟩,
         ⟨.doubleQuotedStringLiteral, w3⟩, ⟨.eof, []⟩] 1 0 [] false false false =
        some (.ok (.or
          [.and [.matchRule { type := .value, regex := [], secret := [],
                              value := w1, parameter := a1 },
                 .matchRule { type := .value, regex := [], secret := [],
                              value := w2, parameter := a2 }],
           .matchRule { type := .value, regex := [], secret := [],
                        value := w3, parameter := a3 }], 11))) ∧
      (parseRuleLoop (fuel + 6)
        [⟨.doubleQuotedStringLiteral, v1⟩, ⟨.stringEqual, [61, 61]⟩,
         ⟨.doubleQuotedStringLiteral, w1⟩, ⟨.or, [124, 124]⟩,
         ⟨.doubleQuotedStringLiteral, v2⟩, ⟨.stringEqual, [61, 61]⟩,
         ⟨.doubleQuotedStringLiteral, w2⟩, ⟨.and, [38, 38]⟩,
         ⟨.doubleQuotedStringLiteral, v3⟩, ⟨.stringEqual, [61, 61]⟩,
         ⟨.doubleQuotedStringLiteral, w3⟩, ⟨.eof, []⟩] 1 0 [] false false false =
        some (.ok (.and
          [.or [.matchRule { type := .value, regex := [], secret := [],
                             value := w1, parameter := a1 },
                .matchRule { type := .value, regex := [], secret := [],
                             value := w2, parameter := a2 }],
           .matchRule { type := .value, regex := [], secret := [],
                        value := w3, parameter := a3 }], 11)))) ∧
    Parse (bytes "\"header.a\"==\"1\"&&\"query.b\"==\"2\"||\"payload.c\"==\"3\"") =
      .ok (.or
        [.and [.matchRule { type := .value, regex := [], secret := [],
                            value := bytes "1", parameter := ⟨bytes "header", bytes "a"⟩ },
               .matchRule { type := .value, regex := [], secret := [],
                            value := bytes "2", parameter := ⟨bytes "query", bytes "b"⟩ }],
         .matchRule { type := .value, regex := [], secret := [],
                      value := bytes "3", parameter := ⟨bytes "payload", bytes "c"⟩ }]) ∧
    Parse (bytes "\"header.a\"==\"1\"||\"query.b\"==\"2\"&&\"payload.c\"==\"3\"") =
      .ok (.and
        [.or [.matchRule { type := .value, regex := [], secret := [],
                           value := bytes "1", parameter := ⟨bytes "header", bytes "a"⟩ },
              .matchRule { type := .value, regex := [], secret := [],
                           value := bytes "2", parameter := ⟨bytes "query", bytes "b"⟩ }],
         .matchRule { type := .value, regex := [], secret := [],
                      value := bytes "3", parameter := ⟨bytes "payload", bytes "c"⟩ }]) := by
  refine ⟨?_, rfl, rfl⟩
  intro fuel v1 w1 v2 w2 v3 w3 a1 a2 a3 h1 h2 h3
  constructor
  · simp [parseRuleLoop, hasTT, isLit, tokValue, h1, h2, h3, closeLevel]
  · simp [parseRuleLoop, hasTT, isLit, tokValue, h1, h2, h3, closeLevel]

/-- Witness for C1 at concrete literals. -/
theorem claim_C1_witness :
    parseRuleLoop 6
      [⟨.doubleQuotedStringLiteral, bytes "header.a"⟩, ⟨.stringEqual, [61, 61]⟩,
       ⟨.doubleQuotedStringLiteral, bytes "1"⟩, ⟨.and, [38, 38]⟩,
       ⟨.doubleQuotedStringLiteral, bytes "query.b"⟩, ⟨.stringEqual, [61, 61]⟩,
       ⟨.doubleQuotedStringLiteral, bytes "2"⟩, ⟨.or, [124, 124]⟩,
       ⟨.doubleQuotedStringLiteral, bytes "payload.c"⟩, ⟨.stringEqual, [61, 61]⟩,
       ⟨.doubleQuotedStringLiteral, bytes "3"⟩, ⟨.eof, []⟩] 1 0 [] false false false =
      some (.ok (.or
        [.and [.matchRule { type := .value, regex := [], secret := [],
                            value := bytes "1", parameter := ⟨bytes "header", bytes "a"⟩ },
               .matchRule { type := .value, regex := [], secret := [],
                            value := bytes "2", parameter := ⟨bytes "query", bytes "b"⟩ }],
         .matchRule { type := .value, regex := [], secret := [],
                      value := bytes "3", parameter := ⟨bytes "payload", bytes "c"⟩ }], 11)) :=
  ((claim_C1.1 0 (bytes "header.a") (bytes "1") (bytes "query.b") (bytes "2")
    (bytes "payload.c") (bytes "3") ⟨bytes "header", bytes "a"⟩
    ⟨bytes "query", bytes "b"⟩ ⟨bytes "payload", bytes "c"⟩ rfl rfl rfl).1)

/-- Counterexample to C2 as stated: the hash-match input whose sha1 target
literal is `payload.body` does not succeed — the target check compares
the whole literal with the fixed keyword `payload`, so the parse fails
with the invalid-sha1-target error. -/
theorem claim_C2_cex :
    Parse (bytes "\"header.X\" == sha1(\"payload.body\", \"secret\")") =
      .parseError (.invalidSha1Target 4) 0 ∧
    (∀ r : Rule,
      Parse (bytes "\"header.X\" == sha1(\"payload.body\", \"secret\")") ≠ .ok r) := by
  refine ⟨rfl, ?_⟩
  intro r hr
  rw [(rfl : Parse (bytes "\"header.X\" == sha1(\"payload.body\", \"secret\")") =
    .parseError (.invalidSha1Target 4) 0)] at hr
  exact ParseResult.noConfusion hr

/-- Claim C2 as amended: the hash-match succeeds exactly when the first
literal inside the sha1 call is the whole keyword `payload` (and the left
literal validates): with target literal `payload` the parse returns the
sha1 match rule, while any other target literal (such as `payload.body`
or `query.q`) fails with the invalid-sha1-target error. -/
theorem claim_C2 :
    Parse (bytes "\"header.X\" == sha1(\"payload\", \"secret\")") =
      .ok (.matchRule { type := .hashSHA1, regex := [], secret := bytes "secret",
                        value := [], parameter := ⟨bytes "header", bytes "X"⟩ }) ∧
    Parse (bytes "\"header.X\" == sha1(\"query.q\", \"secret\")") =
      .parseError (.invalidSha1Target 4) 0 ∧
    (∀ (fuel : Nat) (v1 v2 v3 : List Nat),
      (v2 ≠ sourcePayload →
        parseRuleLoop (fuel + 2)
          [⟨.doubleQuotedStringLiteral, v1⟩, ⟨.stringEqual, [61, 61]⟩,
           ⟨.sha1, [115, 104, 97, 49]⟩, ⟨.leftParenthesis, [40]⟩,
           ⟨.doubleQuotedStringLiteral, v2⟩, ⟨.comma, [44]⟩,
           ⟨.doubleQuotedStringLiteral, v3⟩, ⟨.rightParenthesis, [41]⟩,
           ⟨.eof, []⟩] 1 0 [] false false false =
          some (.error (.invalidSha1Target 4, 0))) ∧
      (v2 = sourcePayload → ∀ e, parseArgumentLiteral v1 = .error e →
        parseRuleLoop (fuel + 2)
          [⟨.doubleQuotedStringLiteral, v1⟩, ⟨.stringEqual, [61, 61]⟩,
           ⟨.sha1, [115, 104, 97, 49]⟩, ⟨.leftParenthesis, [40]⟩,
           ⟨.doubleQuotedStringLiteral, v2⟩, ⟨.comma, [44]⟩,
           ⟨.doubleQuotedStringLiteral, v3⟩, ⟨.rightParenthesis, [41]⟩,
           ⟨.eof, []⟩] 1 0 [] false false false =
          some (.error (argErrToPErr e 0, 0))) ∧
      (v2 = sourcePayload → ∀ a, parseArgumentLiteral v1 = .ok a →
        parseRuleLoop (fuel + 2)
          [⟨.doubleQuotedStringLiteral, v1⟩, ⟨.stringEqual, [61, 61]⟩,
           ⟨.sha1, [115, 104, 97, 49]⟩, ⟨.leftParenthesis, [40]⟩,
           ⟨.doubleQuotedStringLiteral, v2⟩, ⟨.comma, [44]⟩,
           ⟨.doubleQuotedStringLiteral, v3⟩, ⟨.rightParenthesis, [41]⟩,
           ⟨.eof, []⟩] 1 0 [] false false false =
          some (.ok (.matchRule { type := .hashSHA1, regex := [], secret := v3,
                                  value := [], parameter := a }, 8)))) := by
  refine ⟨rfl, rfl, ?_⟩
  intro fuel v1 v2 v3
  refine ⟨?_, ?_, ?_⟩
  · intro hne
    simp [parseRuleLoop, hasTT, isLit, tokValue, hne, closeLevel]
  · intro heq e he
    simp [parseRuleLoop, hasTT, isLit, tokValue, heq, he, closeLevel]
  · intro heq a ha
    simp [parseRuleLoop, hasTT, isLit, tokValue, heq, ha, closeLevel]

/-- Witness for C2's general conjunct at concrete literals. -/
theorem claim_C2_witness :
    parseRuleLoop 2
      [⟨.doubleQuotedStringLiteral, bytes "header.X"⟩, ⟨.stringEqual, [61, 61]⟩,
       ⟨.sha1, [115, 104, 97, 49]⟩, ⟨.leftParenthesis, [40]⟩,
       ⟨.doubleQuotedStringLiteral, bytes "payload"⟩, ⟨.comma, [44]⟩,
       ⟨.doubleQuotedStringLiteral, bytes "secret"⟩, ⟨.rightParenthesis, [41]⟩,
       ⟨.eof, []⟩] 1 0 [] false false false =
      some (.ok (.matchRule { type := .hashSHA1, regex := [],
                              secret := bytes "secret", value := [],
                              parameter := ⟨bytes "header", bytes "X"⟩ }, 8)) :=
  (claim_C2.2.2 0 (bytes "header.X") (bytes "payload") (bytes "secret")).2.2
    rfl ⟨bytes "header", bytes "X"⟩ rfl

theorem splitFirst_not_mem {c : Nat} : ∀ {s : List Nat}, c ∉ s →
    splitFirst c s = none := by
  intro s
  induction s with
  | nil => intro _; rfl
  | cons b rest ih =>
    intro h
    simp only [List.mem_cons, not_or] at h
    unfold splitFirst
    rw [if_neg (fun hb => h.1 hb.symm), ih h.2]
    rfl

theorem splitFirst_append {c : Nat} : ∀ (pre post : List Nat), c ∉ pre →
    splitFirst c (pre ++ c :: post) = some (pre, post) := by
  intro pre
  induction pre with
  | nil =>
    intro post _
    simp [splitFirst]
  | cons b pre ih =>
    intro post h
    simp only [List.mem_cons, not_or] at h
    simp only [List.cons_append]
    unfold splitFirst
    rw [if_neg (fun hb => h.1 hb.symm), ih post h.2]
    rfl

/-- Claim C6: argument-reference parsing splits the literal at the first
dot; no dot gives the invalid-argument-format error, a left part outside
the enumerated source set gives the invalid-parameter-source error, an
empty right part gives the invalid-parameter-name error, and otherwise
the reference keeps the full remainder after the first dot as the name;
the rule parser applies the same checks where it expects a reference. -/
theorem claim_C6 (s : List Nat) :
    (46 ∉ s → parseArgumentLiteral s = .error .invalidArgumentFormat) ∧
    (∀ pre post, s = pre ++ 46 :: post → 46 ∉ pre →
      ((pre ≠ sourceHeader ∧ pre ≠ sourcePayload ∧ pre ≠ sourceQuery ∧
          pre ≠ sourceString) →
        parseArgumentLiteral s = .error .invalidParameterSource) ∧
      ((pre = sourceHeader ∨ pre = sourcePayload ∨ pre = sourceQuery ∨
          pre = sourceString) →
        (post = [] → parseArgumentLiteral s = .error .invalidParameterName) ∧
        (post ≠ [] → parseArgumentLiteral s = .ok ⟨pre, post⟩))) ∧
    (∀ (fuel : Nat) (v : List Nat),
      (∀ e, parseArgumentLiteral s = .error e →
        parseRuleLoop (fuel + 1)
          [⟨.doubleQuotedStringLiteral, s⟩, ⟨.stringEqual, [61, 61]⟩,
           ⟨.doubleQuotedStringLiteral, v⟩, ⟨.eof, []⟩] 1 0 [] false false false =
          some (.error (argErrToPErr e 0, 0))) ∧
      (∀ a, parseArgumentLiteral s = .ok a →
        parseRuleLoop (fuel + 2)
          [⟨.doubleQuotedStringLiteral, s⟩, ⟨.stringEqual, [61, 61]⟩,
           ⟨.doubleQuotedStringLiteral, v⟩, ⟨.eof, []⟩] 1 0 [] false false false =
          some (.ok (.matchRule { type := .value, regex := [], secret := [],
                                  value := v, parameter := a }, 3)))) := by
  refine ⟨?_, ?_, ?_⟩
  · intro h
    unfold parseArgumentLiteral
    rw [splitFirst_not_mem h]
  · intro pre post hs hpre
    subst hs
    have hsp := splitFirst_append pre post hpre
    constructor
    · intro hsrc
      unfold parseArgumentLiteral
      rw [hsp]
      simp only []
      rw [if_pos hsrc]
    · intro hmem
      have hcond : ¬(pre ≠ sourceHeader ∧ pre ≠ sourcePayload ∧
          pre ≠ sourceQuery ∧ pre ≠ sourceString) := by
        rcases hmem with h | h | h | h <;> intro hc <;> [exact hc.1 h;
          exact hc.2.1 h; exact hc.2.2.1 h; exact hc.2.2.2 h]
      constructor
      · intro hpost
        subst hpost
        unfold parseArgumentLiteral
        rw [hsp]
        simp only []
        rw [if_neg hcond]
        simp
      · intro hpost
        unfold parseArgumentLiteral
        rw [hsp]
        simp only []
        rw [if_neg hcond, if_neg hpost]
  · intro fuel v
    constructor
    · intro e he
      simp [parseRuleLoop, hasTT, isLit, tokValue, he, closeLevel]
    · intro a ha
      simp [parseRuleLoop, hasTT, isLit, tokValue, ha, closeLevel]

/-- Witness for C6 at the literal `header.X` and at a dot-free literal. -/
theorem claim_C6_witness :
    parseArgumentLiteral (bytes "header.X") =
      .ok ⟨bytes "header", bytes "X"⟩ ∧
    parseArgumentLiteral (bytes "nodot") = .error .invalidArgumentFormat :=
  ⟨(((claim_C6 (bytes "header.X")).2.1 (bytes "header") (bytes "X")
      (by decide) (by decide)).2 (Or.inl rfl)).2 (by decide),
   (claim_C6 (bytes "nodot")).1 (by decide)⟩

/-! ### Characterization of the comma-list parser -/

theorem hasTT_getElem {ts : List Token} {pos : Nat} {ty : TokenType}
    (h : hasTT ts pos ty = true) : ∃ t, ts[pos]? = some t ∧ t.type = ty := by
  unfold hasTT at h
  rcases hts : ts[pos]? with _ | t
  · rw [hts] at h
    simp at h
  · rw [hts] at h
    simp only [decide_eq_true_eq] at h
    exact ⟨t, rfl, h⟩

theorem isLit_getElem {ts : List Token} {pos : Nat} (h : isLit ts pos = true) :
    ∃ t, ts[pos]? = some t ∧
      (t.type = .singleQuotedStringLiteral ∨ t.type = .doubleQuotedStringLiteral) := by
  unfold isLit at h
  rcases Bool.or_eq_true_iff.mp h with h1 | h1
  · obtain ⟨t, ht, hty⟩ := hasTT_getElem h1
    exact ⟨t, ht, Or.inl hty⟩
  · obtain ⟨t, ht, hty⟩ := hasTT_getElem h1
    exact ⟨t, ht, Or.inr hty⟩

theorem hasTT_of_type {ts : List Token} {pos : Nat} {ty : TokenType}
    (h : hasTT ts pos ty = true) (ty2 : TokenType) (hne : ty ≠ ty2) :
    hasTT ts pos ty2 = false := by
  obtain ⟨t, ht, hty⟩ := hasTT_getElem h
  unfold hasTT
  rw [ht]
  simp [hty, hne]

theorem isLit_of_comma {ts : List Token} {pos : Nat}
    (h : hasTT ts pos .comma = true) : isLit ts pos = false := by
  unfold isLit
  rw [hasTT_of_type h .singleQuotedStringLiteral (by simp),
    hasTT_of_type h .doubleQuotedStringLiteral (by simp)]
  rfl

theorem isLit_of_eof {ts : List Token} {pos : Nat}
    (h : hasTT ts pos .eof = true) : isLit ts pos = false := by
  unfold isLit
  rw [hasTT_of_type h .singleQuotedStringLiteral (by simp),
    hasTT_of_type h .doubleQuotedStringLiteral (by simp)]
  rfl

/-- The parsed reference a token contributes to the comma list: a valid
reference for a quoted literal, nothing otherwise. -/
def argOfToken (t : Token) : Option Argument :=
  if t.type = .singleQuotedStringLiteral ∨ t.type = .doubleQuotedStringLiteral
  then (parseArgumentLiteral t.value).toOption else none

/-- The ordered references of the literal tokens between position `pos`
and the first end-of-input token. -/
def litRefsSeg (ts : List Token) (pos : Nat) : List Argument :=
  ((ts.drop pos).takeWhile (fun t => t.type != TokenType.eof)).filterMap argOfToken

theorem drop_cons_of_getElem {ts : List Token} {pos : Nat} {t : Token}
    (h : ts[pos]? = some t) : ts.drop pos = t :: ts.drop (pos + 1) := by
  obtain ⟨hlt, hv⟩ := List.getElem?_eq_some_iff.mp h
  rw [List.drop_eq_getElem_cons hlt, hv]

theorem tokValue_of_getElem {ts : List Token} {pos : Nat} {t : Token}
    (h : ts[pos]? = some t) : tokValue ts pos = t.value := by
  unfold tokValue
  rw [h]
  rfl

theorem litRefsSeg_lit {ts : List Token} {pos : Nat} {t : Token} {a : Argument}
    (h : ts[pos]? = some t)
    (hty : t.type = .singleQuotedStringLiteral ∨ t.type = .doubleQuotedStringLiteral)
    (ha : parseArgumentLiteral t.value = .ok a) :
    litRefsSeg ts pos = a :: litRefsSeg ts (pos + 1) := by
  unfold litRefsSeg
  rw [drop_cons_of_getElem h]
  have hne : (t.type != TokenType.eof) = true := by
    rcases hty with hty | hty <;> simp [hty]
  rw [List.takeWhile_cons, if_pos hne, List.filterMap_cons]
  have : argOfToken t = some a := by
    unfold argOfToken
    rw [if_pos hty, ha]
    rfl
  rw [this]

theorem litRefsSeg_comma {ts : List Token} {pos : Nat} {t : Token}
    (h : ts[pos]? = some t) (hty : t.type = .comma) :
    litRefsSeg ts pos = litRefsSeg ts (pos + 1) := by
  unfold litRefsSeg
  rw [drop_cons_of_getElem h]
  have hne : (t.type != TokenType.eof) = true := by simp [hty]
  rw [List.takeWhile_cons, if_pos hne, List.filterMap_cons]
  have : argOfToken t = none := by
    unfold argOfToken
    rw [if_neg]
    rw [hty]
    simp
  rw [this]

theorem litRefsSeg_eof {ts : List Token} {pos : Nat} {t : Token}
    (h : ts[pos]? = some t) (hty : t.type = .eof) :
    litRefsSeg ts pos = [] := by
  unfold litRefsSeg
  rw [drop_cons_of_getElem h]
  have hne : ¬((t.type != TokenType.eof) = true) := by simp [hty]
  rw [List.takeWhile_cons, if_neg hne]
  rfl

/-- Success characterization of the comma-list loop: the returned list is
the accumulator followed by the references of the literal tokens up to
the first end-of-input token. -/
theorem parseArgumentsLoop_ok (fuel : Nat) :
    ∀ (ts : List Token) (pos : Nat) (acc : List Argument) (exp : Bool)
      (args : List Argument),
    parseArgumentsLoop fuel ts pos acc exp = some (.ok args) →
    args = acc ++ litRefsSeg ts pos := by
  induction fuel with
  | zero =>
    intro ts pos acc exp args h
    simp [parseArgumentsLoop] at h
  | succ fuel ih =>
    intro ts pos acc exp args h
    rw [parseArgumentsLoop] at h
    by_cases c1 : isLit ts pos = true
    · rw [if_pos c1] at h
      by_cases ce : (!exp) = true
      · rw [if_pos ce] at h
        simp at h
      · rw [if_neg ce] at h
        rcases hpal : parseArgumentLiteral (tokValue ts pos) with e | a
        · rw [hpal] at h
          simp at h
        · rw [hpal] at h
          simp only [] at h
          have hrec := ih ts (pos + 1) (acc ++ [a]) false args h
          obtain ⟨t, hts, hty⟩ := isLit_getElem c1
          rw [tokValue_of_getElem hts] at hpal
          rw [litRefsSeg_lit hts hty hpal, hrec]
          simp
    · rw [if_neg c1] at h
      by_cases c2 : hasTT ts pos .comma = true
      · rw [if_pos c2] at h
        by_cases ce : exp = true
        · rw [if_pos ce] at h
          simp at h
        · rw [if_neg ce] at h
          have hrec := ih ts (pos + 1) acc true args h
          obtain ⟨t, hts, hty⟩ := hasTT_getElem c2
          rw [litRefsSeg_comma hts hty]
          exact hrec
      · rw [if_neg c2] at h
        by_cases c3 : (!hasTT ts pos .eof) = true
        · rw [if_pos c3] at h
          simp at h
        · rw [if_neg c3] at h
          by_cases ce : exp = true
          · rw [if_pos ce] at h
            simp at h
          · rw [if_neg ce] at h
            simp only [Option.some.injEq, Except.ok.injEq] at h
            subst h
            have c3' : hasTT ts pos .eof = true := by simpa using c3
            obtain ⟨t, hts, hty⟩ := hasTT_getElem c3'
            rw [litRefsSeg_eof hts hty]
            simp

/-- Claim C7: the comma-list loop's `expectingArgument` discipline — a
literal only while the flag is set (else expected-comma), a comma only
while it is clear (else unexpected-token), consuming a literal clears and
a comma sets the flag, end of input with the flag set is the
expected-argument error (so the empty input fails), any other token is
the unexpected-token error, and success returns the ordered references. -/
theorem claim_C7 :
    (∀ (fuel : Nat) (ts : List Token) (pos : Nat) (acc : List Argument),
      isLit ts pos = true →
      parseArgumentsLoop (fuel + 1) ts pos acc false =
        some (.error (.expectedComma pos))) ∧
    (∀ (fuel : Nat) (ts : List Token) (pos : Nat) (acc : List Argument),
      hasTT ts pos .comma = true →
      parseArgumentsLoop (fuel + 1) ts pos acc true =
        some (.error (.unexpectedToken pos))) ∧
    (∀ (fuel : Nat) (ts : List Token) (pos : Nat) (acc : List Argument),
      hasTT ts pos .eof = true →
      parseArgumentsLoop (fuel + 1) ts pos acc true =
        some (.error (.expectedArgument pos))) ∧
    (∀ (fuel : Nat) (ts : List Token) (pos : Nat) (acc : List Argument)
       (exp : Bool), isLit ts pos = false → hasTT ts pos .comma = false →
      hasTT ts pos .eof = false →
      parseArgumentsLoop (fuel + 1) ts pos acc exp =
        some (.error (.unexpectedToken pos))) ∧
    (∀ (fuel : Nat) (ts : List Token) (pos : Nat) (acc : List Argument)
       (a : Argument), isLit ts pos = true →
      parseArgumentLiteral (tokValue ts pos) = .ok a →
      parseArgumentsLoop (fuel + 1) ts pos acc true =
        parseArgumentsLoop fuel ts (pos + 1) (acc ++ [a]) false) ∧
    (∀ (fuel : Nat) (ts : List Token) (pos : Nat) (acc : List Argument),
      isLit ts pos = false → hasTT ts pos .comma = true →
      parseArgumentsLoop (fuel + 1) ts pos acc false =
        parseArgumentsLoop fuel ts (pos + 1) acc true) ∧
    (ParseArguments (bytes "") = .parseError (.expectedArgument 0)) ∧
    (∀ (fuel : Nat) (ts : List Token) (pos : Nat) (acc : List Argument)
       (exp : Bool) (args : List Argument),
      parseArgumentsLoop fuel ts pos acc exp = some (.ok args) →
      args = acc ++ litRefsSeg ts pos) := by
  refine ⟨?_, ?_, ?_, ?_, ?_, ?_, rfl, parseArgumentsLoop_ok⟩
  · intro fuel ts pos acc h
    rw [parseArgumentsLoop, if_pos h, if_pos (by decide)]
  · intro fuel ts pos acc h
    rw [parseArgumentsLoop, if_neg (by simp [isLit_of_comma h]), if_pos h,
      if_pos rfl]
  · intro fuel ts pos acc h
    rw [parseArgumentsLoop, if_neg (by simp [isLit_of_eof h]),
      if_neg (by simp [hasTT_of_type h .comma (by simp)]), if_neg (by simp [h]),
      if_pos rfl]
  · intro fuel ts pos acc exp h1 h2 h3
    rw [parseArgumentsLoop, if_neg (by simp [h1]), if_neg (by simp [h2]),
      if_pos (by simp [h3])]
  · intro fuel ts pos acc a hlit ha
    rw [parseArgumentsLoop, if_pos hlit, if_neg (by decide), ha]
  · intro fuel ts pos acc h1 h2
    rw [parseArgumentsLoop, if_neg (by simp [h1]), if_pos h2,
      if_neg (by decide)]

/-- Witness for C7: the success characterization and the flag errors at a
concrete token stream. -/
theorem claim_C7_witness :
    ([⟨bytes "header", bytes "a"⟩, ⟨bytes "query", bytes "b"⟩] : List Argument) =
      [] ++ litRefsSeg
        [⟨.doubleQuotedStringLiteral, bytes "header.a"⟩, ⟨.comma, [44]⟩,
         ⟨.doubleQuotedStringLiteral, bytes "query.b"⟩, ⟨.eof, []⟩] 0 ∧
    parseArgumentsLoop 4
      [⟨.doubleQuotedStringLiteral, bytes "header.a"⟩, ⟨.comma, [44]⟩,
       ⟨.doubleQuotedStringLiteral, bytes "query.b"⟩, ⟨.eof, []⟩] 0 [] false =
      some (.error (.expectedComma 0)) :=
  ⟨claim_C7.2.2.2.2.2.2.2 5
    [⟨.doubleQuotedStringLiteral, bytes "header.a"⟩, ⟨.comma, [44]⟩,
     ⟨.doubleQuotedStringLiteral, bytes "query.b"⟩, ⟨.eof, []⟩] 0 [] true
    [⟨bytes "header", bytes "a"⟩, ⟨bytes "query", bytes "b"⟩] rfl,
   claim_C7.1 3
    [⟨.doubleQuotedStringLiteral, bytes "header.a"⟩, ⟨.comma, [44]⟩,
     ⟨.doubleQuotedStringLiteral, bytes "query.b"⟩, ⟨.eof, []⟩] 0 [] rfl⟩

end Hookman
